/-
Verification of the interleaved vertex/index stream builder of the gfx
repository (package gfx and package geometry).

The embedding models:
 * the vertex-format bit set and its derived schema functions
   (`attribBytes`, `Stride`, the lazily built offset table) from
   src/geometry.go and src/unnamed/part_001 (package gfx), and
 * the vertex stream builder / index stream builder of
   src/geometry/builder.go (package geometry), which is the current
   variant of the builder, together with the older `GeometryBuilder`
   index-side functions of src/geometry.go (lines 373-537) that are
   cited by the claims about the identity-index fallback.

Conventions of the embedding:
 * `gfx.VertexFormat` (a uint32 bit set) is a `Nat`; bitwise ops are
   `Nat.land` / `Nat.lor`, which agree with uint32 ops on the 18
   channel bits used by the code.
 * byte buffers (`[]byte`) are `List Nat`; a Go slice's length and
   capacity coincide in this model (`append` always produces exactly
   the written bytes, matching the observable behaviour of the code).
 * `uint16` arithmetic is `Nat` arithmetic reduced `% 65536` at each
   operation that can overflow.
 * Go runtime panics (bad-format panic in `offset`, slice-bounds panic
   in `set`) and returned errors are modelled as `Except` errors; the
   error carries the partially mutated builder state, because the Go
   methods mutate their pointer receiver before panicking.
 * `float32` arguments of `Position`/`Normal`/`Texcoord` are carried as
   opaque 4-byte groups (`B4`): the Go code reinterprets the IEEE-754
   bit pattern as raw bytes and never does arithmetic on it, so the
   byte-group representation is exact.
 * The Go `map[VertexFormat]int` fields are modelled as functions
   `Nat → Option Nat`.  `fillVertex` ranges over the map in Go's
   unspecified map order; the embedding ranges over the channel bits in
   ascending order (the order used everywhere else in the code).  The
   written ranges of distinct channels are disjoint, so the resulting
   buffer does not depend on the order; the commented-out original body
   of `fillVertex` in the source uses exactly this ascending order.
 * The memoised `offsets` map is a pure cache of a function of the
   immutable format, so it is modelled by the pure function `offsetOf`.
-/
import Mathlib

namespace Gfx

/-! ### Vertex schema: channel bits, attribute byte sizes, stride.

Translated from src/unnamed/part_001 lines 46-96 and 150-171 (package
gfx; the same functions appear verbatim in src/geometry.go lines
581-699).  The exported method `gfx.VertexFormat.AttribBytes` called by
src/geometry/builder.go is the exported form of `attribBytes`; its body
is the switch below. -/
/-- The 18 channel bits `VertexPosition = 1 << 0` … `VertexUserData3 =
1 << 17`, in the ascending order used by every loop
`for i = 1; i <= MaxVertexFormat; i <<= 1`. -/
def channelBits : List Nat :=
  [1, 2, 4, 8, 16, 32, 64, 128, 256, 512, 1024, 2048, 4096, 8192,
   16384, 32768, 65536, 131072]

/-- `VertexPosition`. -/
def vertexPosition : Nat := 1

/-- `VertexColor`. -/
def vertexColor : Nat := 2

/-- `VertexNormal`. -/
def vertexNormal : Nat := 8

/-- `VertexTexcoord`. -/
def vertexTexcoord : Nat := 64

/-- `MaxVertexFormat = VertexUserData3`. -/
def maxVertexFormat : Nat := 131072

/-- `attribBytes` of package gfx: byte size of one channel.  Colors are
4 packed bytes, texcoords two float32s, user data four float32s, and
everything else (position, normal, tangent, bitangent) three
float32s. -/
def attribBytes (v : Nat) : Nat :=
  if v = 2 ∨ v = 4 then 4
  else if v = 64 ∨ v = 128 ∨ v = 256 ∨ v = 512 ∨ v = 1024 ∨ v = 2048 ∨
          v = 4096 ∨ v = 8192 then 8
  else if v = 16384 ∨ v = 32768 ∨ v = 65536 ∨ v = 131072 then 16
  else 12

/-- The accumulating loop body of `VertexFormat.Stride`, iterating over
the channel bits in ascending order. -/
def strideFrom (cs : List Nat) (v : Nat) : Nat :=
  match cs with
  | [] => 0
  | c :: rest => (if v &&& c ≠ 0 then attribBytes c else 0) + strideFrom rest v

/-- `VertexFormat.Stride`: sum of the byte sizes of the present
channels. -/
def strideOf (v : Nat) : Nat := strideFrom channelBits v

/-- The loop body of `VertexFormat.Count`. -/
def countFrom (cs : List Nat) (v : Nat) : Nat :=
  match cs with
  | [] => 0
  | c :: rest => (if v &&& c ≠ 0 then 1 else 0) + countFrom rest v

/-- `VertexFormat.Count`: number of present channels. -/
def countOf (v : Nat) : Nat := countFrom channelBits v

/-! ### The attribute offset table.

`VertexBuilder.offset` (src/geometry/builder.go lines 56-71) lazily
builds `map[gfx.VertexFormat]int` by walking the channel bits in
ascending order and accumulating `AttribBytes`.  The map is a pure
function of the immutable format, modelled here directly. -/
/-- The offset table built by the loop in `VertexBuilder.offset`,
starting at offset `o`: the list of (channel, byte offset) pairs of the
channels present in `vf`, in ascending channel order. -/
def offsetsFrom (cs : List Nat) (vf o : Nat) : List (Nat × Nat) :=
  match cs with
  | [] => []
  | c :: rest =>
    if vf &&& c ≠ 0 then (c, o) :: offsetsFrom rest vf (o + attribBytes c)
    else offsetsFrom rest vf o

/-- The full offset table of a format. -/
def offsetsOf (vf : Nat) : List (Nat × Nat) := offsetsFrom channelBits vf 0

/-- Go map lookup with the zero value 0 for a missing key (the builder
only looks up channels present in the format, for which an entry
exists). -/
def offsetLookup (l : List (Nat × Nat)) (v : Nat) : Nat :=
  match l with
  | [] => 0
  | (c, o) :: rest => if c = v then o else offsetLookup rest v

/-- `VertexBuilder.offset` for a channel present in the format. -/
def offsetOf (vf v : Nat) : Nat := offsetLookup (offsetsOf vf) v

/-! ### Contiguity of the offset table.

The offset table assigns consecutive half-open byte ranges, in channel
order, starting at 0 and ending at the stride. -/
/-- The entries of an offset-table fragment tile the range `[a, b)`
consecutively: each entry starts where the previous one ended. -/
def tilesFrom (l : List (Nat × Nat)) (a b : Nat) : Prop :=
  match l with
  | [] => a = b
  | (c, o) :: rest => o = a ∧ tilesFrom rest (a + attribBytes c) b

/-! ### Byte buffers.

`[]byte` values are `List Nat`.  `extract l o n` is the slice
`l[o : o+n]` and `writeAt l o d` is `copy(l[o : o+len(d)], d)`. -/
/-- Reading the slice `l[o : o+n]`. -/
def extract (l : List Nat) (o n : Nat) : List Nat := (l.drop o).take n

/-- Writing `d` into `l` at offset `o` (Go `copy` into a slice of
exactly `d`'s length). -/
def writeAt (l : List Nat) (o : Nat) (d : List Nat) : List Nat :=
  l.take o ++ d ++ l.drop (o + d.length)

/-! ### The vertex stream builder (src/geometry/builder.go lines 29-173).

Errors: `badFormat` models both the panic `panic(gfx.ErrBadVertexFormat)`
raised by `offset` for a channel missing from the format and the error
value `gfx.ErrBadVertexFormat` returned by `CopyVertices`; `bounds`
models the Go runtime slice-bounds panic raised by
`b.verts[offs : offs+len(data)]` when the range exceeds the buffer.
An error carries the builder state at the moment of the panic, because
the methods mutate their pointer receiver before panicking. -/
inductive BErr where
  | badFormat : BErr
  | bounds : BErr
deriving DecidableEq, Repr

/-- `geometry.VertexBuilder`.  The memoised `offsets` cache is replaced
by the pure `offsetOf` (see the header comment). -/
structure VertexBuilder where
  vf : Nat
  stride : Nat
  cur : Nat
  curvf : Nat
  lastdata : Nat → Option Nat
  verts : List Nat

/-- `geometry.NewVertexBuilder`. -/
def newVertexBuilder (vf : Nat) : VertexBuilder :=
  { vf := vf, stride := strideOf vf, cur := 0, curvf := 0,
    lastdata := fun _ => none, verts := [] }

/-- `VertexBuilder.Clear`: buffers back to zero length, fresh
`lastdata` map; format and stride retained. -/
def VertexBuilder.clear (b : VertexBuilder) : VertexBuilder :=
  { b with lastdata := fun _ => none, cur := 0, curvf := 0, verts := [] }

/-- `VertexBuilder.set`: mark the channel in `curvf`, look up its
offset (panicking if the channel is missing from the format), record
the write position in `lastdata`, and copy the bytes (panicking if the
slice `verts[offs : offs+len(data)]` is out of range). -/
def VertexBuilder.set (b : VertexBuilder) (v : Nat) (data : List Nat) :
    Except (BErr × VertexBuilder) VertexBuilder :=
  let b1 : VertexBuilder := { b with curvf := b.curvf ||| v }
  if b1.vf &&& v = 0 then .error (.badFormat, b1)
  else
    let offs := b1.cur + offsetOf b1.vf v
    let b2 : VertexBuilder :=
      { b1 with lastdata := fun c => if c = v then some offs else b1.lastdata c }
    if offs + data.length ≤ b2.verts.length then
      .ok { b2 with verts := writeAt b2.verts offs data }
    else .error (.bounds, b2)

/-- `VertexBuilder.next`: advance `cur` past the previous record (when
one exists), reset the per-record write set, and append a zero-filled
record. -/
def VertexBuilder.next (b : VertexBuilder) : VertexBuilder :=
  { b with
    cur := if b.verts.length ≠ 0 then b.cur + b.stride else b.cur,
    curvf := 0,
    verts := b.verts ++ List.replicate b.stride 0 }

/-- The loop body of `VertexBuilder.fillVertex`, walking the channels
in ascending bit order (see the header comment on map order): a channel
that is in the format, has a recorded last write, and has not been set
on the current record is re-`set` from the bytes of its last write. -/
def VertexBuilder.fillFrom (cs : List Nat) (b : VertexBuilder) :
    Except (BErr × VertexBuilder) VertexBuilder :=
  match cs with
  | [] => .ok b
  | c :: rest =>
    match b.lastdata c with
    | none => VertexBuilder.fillFrom rest b
    | some offs =>
      if b.vf &&& c ≠ 0 ∧ b.curvf &&& c = 0 then
        if offs + attribBytes c ≤ b.verts.length then
          match b.set c (extract b.verts offs (attribBytes c)) with
          | .ok b1 => VertexBuilder.fillFrom rest b1
          | .error e => .error e
        else .error (.bounds, b)
      else VertexBuilder.fillFrom rest b

/-- `VertexBuilder.fillVertex`. -/
def VertexBuilder.fillVertex (b : VertexBuilder) :
    Except (BErr × VertexBuilder) VertexBuilder :=
  VertexBuilder.fillFrom channelBits b

/-- An opaque 4-byte group: the raw bytes of one `float32` argument. -/
structure B4 where
  b0 : Nat
  b1 : Nat
  b2 : Nat
  b3 : Nat
deriving DecidableEq, Repr

/-- The four bytes of a `B4`. -/
def B4.bytes (x : B4) : List Nat := [x.b0, x.b1, x.b2, x.b3]

/-- `VertexBuilder.Position`: finalize the previous record, start a new
one, and set the position channel (12 bytes: the bit patterns of the
three float32 coordinates, via `setf`). -/
def VertexBuilder.position (b : VertexBuilder) (x y z : B4) :
    Except (BErr × VertexBuilder) VertexBuilder := do
  let b1 ← b.fillVertex
  let b2 := b1.next
  b2.set vertexPosition (x.bytes ++ y.bytes ++ z.bytes)

/-- `VertexBuilder.Color`: set the color channel to the 4 given
bytes. -/
def VertexBuilder.color (b : VertexBuilder) (red green blue alpha : Nat) :
    Except (BErr × VertexBuilder) VertexBuilder :=
  b.set vertexColor [red, green, blue, alpha]

/-- `VertexBuilder.Normal` (12 bytes via `setf`). -/
def VertexBuilder.normal (b : VertexBuilder) (x y z : B4) :
    Except (BErr × VertexBuilder) VertexBuilder :=
  b.set vertexNormal (x.bytes ++ y.bytes ++ z.bytes)

/-- `VertexBuilder.Texcoord` (8 bytes via `setf`). -/
def VertexBuilder.texcoord (b : VertexBuilder) (u v : B4) :
    Except (BErr × VertexBuilder) VertexBuilder :=
  b.set vertexTexcoord (u.bytes ++ v.bytes)

/-- `VertexBuilder.VertexCount` is `len(b.verts) / b.stride`; Go integer
division panics when the divisor is zero, hence the `Option`. -/
def VertexBuilder.vertexCount (b : VertexBuilder) : Option Nat :=
  if b.stride = 0 then none else some (b.verts.length / b.stride)

/-- `VertexBuilder.CopyVertices`: run `fillVertex`, then compare the
builder's format with the destination's; on mismatch return
`gfx.ErrBadVertexFormat` (the builder keeps the state `fillVertex`
produced), otherwise hand the byte buffer to the destination
(`dest.SetVertices`), modelled as returning it. -/
def VertexBuilder.copyVertices (b : VertexBuilder) (destFormat : Nat) :
    Except (BErr × VertexBuilder) (VertexBuilder × List Nat) := do
  let b1 ← b.fillVertex
  if b1.vf ≠ destFormat then .error (.badFormat, b1)
  else .ok (b1, b1.verts)

/-- `VertexBuilder.VertexFormat`. -/
def VertexBuilder.vertexFormat (b : VertexBuilder) : Nat := b.vf

/-! ### Vertex operations as data (for quantifying over call
sequences). -/
/-- One call to a per-vertex method of the vertex builder. -/
inductive VOp where
  | position : B4 → B4 → B4 → VOp
  | color : Nat → Nat → Nat → Nat → VOp
  | normal : B4 → B4 → B4 → VOp
  | texcoord : B4 → B4 → VOp
deriving DecidableEq, Repr

/-- The channel bit a vertex operation writes. -/
def VOp.channel : VOp → Nat
  | .position _ _ _ => vertexPosition
  | .color _ _ _ _ => vertexColor
  | .normal _ _ _ => vertexNormal
  | .texcoord _ _ => vertexTexcoord

/-- The bytes a vertex operation writes. -/
def VOp.data : VOp → List Nat
  | .position x y z => x.bytes ++ y.bytes ++ z.bytes
  | .color r g bl a => [r, g, bl, a]
  | .normal x y z => x.bytes ++ y.bytes ++ z.bytes
  | .texcoord u v => u.bytes ++ v.bytes

/-- Whether the operation is the new-vertex call. -/
def VOp.isPos : VOp → Bool
  | .position _ _ _ => true
  | _ => false

/-- Apply one vertex operation. -/
def VOp.apply (b : VertexBuilder) : VOp → Except (BErr × VertexBuilder) VertexBuilder
  | .position x y z => b.position x y z
  | .color r g bl a => b.color r g bl a
  | .normal x y z => b.normal x y z
  | .texcoord u v => b.texcoord u v

/-- Run a sequence of vertex operations. -/
def runOps (ops : List VOp) (b : VertexBuilder) :
    Except (BErr × VertexBuilder) VertexBuilder :=
  match ops with
  | [] => .ok b
  | op :: rest => (op.apply b).bind (runOps rest)

/-- Run a sequence of operations on a fresh builder and copy the bytes
out (the final `fillVertex` of `CopyVertices`). -/
def buildBytes (vf : Nat) (ops : List VOp) :
    Except (BErr × VertexBuilder) (List Nat) :=
  (runOps ops (newVertexBuilder vf)).bind fun b =>
    (b.fillVertex).map fun b1 => b1.verts

/-! ### The index stream builder (src/geometry/builder.go lines
175-219).  All values are uint16: arithmetic is `% 65536`. -/
/-- `geometry.IndexBuilder`. -/
structure IndexBuilder where
  idxs : List Nat
  nextidx : Nat
deriving DecidableEq, Repr

/-- A fresh index builder (Go zero value). -/
def newIndexBuilder : IndexBuilder := { idxs := [], nextidx := 0 }

/-- The loop of `IndexBuilder.Indices`: rebase each element by `base`,
track the running `newnext`, and write the rebased value back into the
caller's slice.  Returns the rebased list (the final contents of the
argument slice) and the final `newnext`. -/
def indicesLoop (input : List Nat) (base nn : Nat) : List Nat × Nat :=
  match input with
  | [] => ([], nn)
  | r :: rest =>
    let idx := (r + base) % 65536
    let nn1 := if nn ≤ idx then (idx + 1) % 65536 else nn
    ((idx :: (indicesLoop rest base nn1).1), (indicesLoop rest base nn1).2)

/-- `IndexBuilder.Indices`: rebase the batch by `nextidx`, append it,
and advance `nextidx`.  The second component of the result is the final
contents of the caller-supplied variadic slice (the loop assigns
`idxs[i] = idx` in place). -/
def IndexBuilder.indices (b : IndexBuilder) (input : List Nat) :
    IndexBuilder × List Nat :=
  ({ idxs := b.idxs ++ (indicesLoop input b.nextidx b.nextidx).1,
     nextidx := (indicesLoop input b.nextidx b.nextidx).2 },
   (indicesLoop input b.nextidx b.nextidx).1)

/-- `IndexBuilder.SetIndices`: replace the stored sequence verbatim and
zero `nextidx`. -/
def IndexBuilder.setIndices (_ : IndexBuilder) (input : List Nat) :
    IndexBuilder :=
  { idxs := input, nextidx := 0 }

/-- `IndexBuilder.IndexCount`. -/
def IndexBuilder.indexCount (b : IndexBuilder) : Nat := b.idxs.length

/-- `IndexBuilder.CopyIndices` hands the stored sequence to
`dest.SetIndices`, modelled as returning it. -/
def IndexBuilder.copyIndices (b : IndexBuilder) : List Nat := b.idxs

/-- `IndexBuilder.Clear`. -/
def IndexBuilder.clear (_ : IndexBuilder) : IndexBuilder :=
  { idxs := [], nextidx := 0 }

/-- Run `Indices` calls in sequence (discarding the argument-slice
views). -/
def runIdxCalls (calls : List (List Nat)) (b : IndexBuilder) : IndexBuilder :=
  match calls with
  | [] => b
  | c :: rest => runIdxCalls rest (b.indices c).1

/-! ### The mesh builder facade `geometry.Builder` (src/geometry/
builder.go lines 9-27): an embedded `VertexBuilder` and `IndexBuilder`
with a combined `Clear`. -/
/-- `geometry.Builder`. -/
structure Builder where
  vb : VertexBuilder
  ib : IndexBuilder

/-- `geometry.NewBuilder`. -/
def newBuilder (vf : Nat) : Builder :=
  { vb := newVertexBuilder vf, ib := newIndexBuilder }

/-- `Builder.Clear`: clears both sub-builders. -/
def Builder.clear (b : Builder) : Builder :=
  { vb := b.vb.clear, ib := b.ib.clear }

/-- One call to a mutating method of the mesh builder. -/
inductive BOp where
  | vertex : VOp → BOp
  | indices : List Nat → BOp
  | setIndices : List Nat → BOp
deriving DecidableEq, Repr

/-- Apply one mesh-builder operation.  Vertex operations may panic
(`Except`); the error state carries the partially mutated builder. -/
def BOp.apply (b : Builder) : BOp → Except (BErr × Builder) Builder
  | .vertex op => match op.apply b.vb with
    | .ok v => .ok { b with vb := v }
    | .error (e, v) => .error (e, { b with vb := v })
  | .indices l => .ok { b with ib := (b.ib.indices l).1 }
  | .setIndices l => .ok { b with ib := b.ib.setIndices l }

/-- Run a sequence of mesh-builder operations. -/
def runBOps (ops : List BOp) (b : Builder) : Except (BErr × Builder) Builder :=
  match ops with
  | [] => .ok b
  | op :: rest => (BOp.apply b op).bind (runBOps rest)

/-- The builder state an `Except` run ends in (a Go panic leaves the
pointer receiver in its partially mutated state). -/
def endState (r : Except (BErr × Builder) Builder) : Builder :=
  match r with
  | .ok b => b
  | .error (_, b) => b

/-! ### The older combined `GeometryBuilder` of package gfx
(src/geometry.go lines 373-537), cited for the identity-index
fallback.  Only the index-side observers are embedded; its vertex
buffer stores float32 values (opaque `Nat`s here) and its stride is in
float32 units (`vf.Stride() / 4`). -/
/-- `gfx.GeometryBuilder` (the fields the index-side observers read).
`idxs : Option _` models the Go distinction between a nil slice (no
index-supplying call ever made) and a non-nil one. -/
structure GeometryBuilder where
  vf : Nat
  stride : Nat
  cur : Nat
  curvf : Nat
  verts : List Nat
  idxs : Option (List Nat)
  nextidx : Nat

/-- `GeometryBuilder.VertexCount` is `len(g.verts) / g.stride` (Go
division panics on a zero divisor). -/
def GeometryBuilder.vertexCount (g : GeometryBuilder) : Option Nat :=
  if g.stride = 0 then none else some (g.verts.length / g.stride)

/-- `GeometryBuilder.IndexCount`: `g.idxs == nil` falls back to the
vertex count. -/
def GeometryBuilder.indexCount (g : GeometryBuilder) : Option Nat :=
  match g.idxs with
  | none => g.vertexCount
  | some l => some l.length

/-- `GeometryBuilder.CopyIndices(buf)`: with stored indices, copy them
over the front of `buf` (Go `copy`, keeping `buf`'s tail); with a nil
slice, fill `buf` with the identity sequence `buf[i] = uint16(i)`.
Returns the final contents of `buf`. -/
def GeometryBuilder.copyIndices (g : GeometryBuilder) (buf : List Nat) :
    List Nat :=
  match g.idxs with
  | some l => l.take buf.length ++ buf.drop (min l.length buf.length)
  | none => (List.range buf.length).map (· % 65536)

/-! ### Observation helpers for `Except` results (the state a Go panic
leaves behind, and the error kind). -/
/-- The vertex-builder state a call ends in (on error, the partially
mutated receiver). -/
def runStateV (r : Except (BErr × VertexBuilder) VertexBuilder) :
    VertexBuilder :=
  match r with
  | .ok b => b
  | .error (_, b) => b

/-- The error kind of a failed builder call, if any. -/
def errKind (r : Except (BErr × VertexBuilder) VertexBuilder) :
    Option BErr :=
  match r with
  | .ok _ => none
  | .error (e, _) => some e

/-- The `curvf` field of the state a failed builder call leaves
behind. -/
def errCurvf (r : Except (BErr × VertexBuilder) VertexBuilder) :
    Option Nat :=
  match r with
  | .ok _ => none
  | .error (_, b) => some b.curvf

/-- The error kind of a failed `CopyVertices` call, if any. -/
def cvErrKind (r : Except (BErr × VertexBuilder) (VertexBuilder × List Nat)) :
    Option BErr :=
  match r with
  | .ok _ => none
  | .error (e, _) => some e

/-- The byte buffer of the state a failed `CopyVertices` call leaves
behind. -/
def cvErrVerts (r : Except (BErr × VertexBuilder) (VertexBuilder × List Nat)) :
    Option (List Nat) :=
  match r with
  | .ok _ => none
  | .error (_, b) => some b.verts

/-! ### Specification-side readings of an operation sequence.

These are pure functions of a vertex-operation list, written from the
claims' wording ("the bytes most recently written for that channel",
"the record's segment of calls"), used to state what the builder's
buffer must contain. -/
/-- Number of records a sequence starts (one per `Position` call). -/
def numRecords (ops : List VOp) : Nat :=
  match ops with
  | [] => 0
  | op :: rest => (if op.isPos then 1 else 0) + numRecords rest

/-- The bytes of the last operation in `ops` that writes channel `c`,
if any. -/
def lastVal (ops : List VOp) (c : Nat) : Option (List Nat) :=
  ops.foldl (fun acc op => if op.channel = c then some op.data else acc) none

/-- The value a finalized record holds for channel `c`: the last bytes
written for `c`, or the zero bytes the record was initialized with. -/
def chanVal (ops : List VOp) (c : Nat) : List Nat :=
  match lastVal ops c with
  | some d => d
  | none => List.replicate (attribBytes c) 0

/-- The prefix of `ops` containing records `0 … k-1` in full: all
operations strictly before the `(k+1)`-th `Position` call. -/
def takeRecs (k : Nat) (ops : List VOp) : List VOp :=
  match ops with
  | [] => []
  | op :: rest =>
    if op.isPos then
      match k with
      | 0 => []
      | k1 + 1 => op :: takeRecs k1 rest
    else op :: takeRecs k rest

/-- Whether a sequence may legally run on a fresh builder: the first
operation (if any) must be the new-vertex call, since every other
setter writes into the current record. -/
def startsWithPos (ops : List VOp) : Prop :=
  match ops with
  | [] => True
  | op :: _ => op.isPos = true

/-- Maximum of a list of naturals (0 for the empty list). -/
def maxL (l : List Nat) : Nat :=
  match l with
  | [] => 0
  | x :: rest => max x (maxL rest)

/-- One rebasing append call's effect on the spec-level `nextBase`,
computed without uint16 wraparound: a non-empty call advances it by one
more than the call's maximum raw index. -/
def specNextBaseStep (nb : Nat) (c : List Nat) : Nat :=
  if c.isEmpty then nb else nb + maxL c + 1

/-- The `nextBase` value the spec predicts for a sequence of rebasing
append calls starting from a fresh builder. -/
def specNextBase (calls : List (List Nat)) : Nat :=
  calls.foldl specNextBaseStep 0

/-! ### The carry-forward invariant.

`ChCur` describes the builder's current record and last-write table for
one channel, relative to an abstract per-channel "last explicitly
written bytes" function `L` (instantiated with `lastVal ops`):

 * the channel's slot of the current record holds the last written
   bytes if the channel is marked in `curvf`, and the slot's initial
   zero bytes otherwise;
 * a `lastdata` entry points at the channel's slot of some record
   `r < n` and that slot holds the last written bytes; no entry means
   the channel was never written. -/
def LdInv (vf n : Nat) (L : Nat → Option (List Nat)) (b : VertexBuilder)
    (c : Nat) : Prop :=
  match b.lastdata c with
  | some o => ∃ r d, r < n ∧ o = r * strideOf vf + offsetOf vf c ∧
      L c = some d ∧ extract b.verts o (attribBytes c) = d
  | none => L c = none

def ChCur (vf n : Nat) (L : Nat → Option (List Nat)) (b : VertexBuilder)
    (c : Nat) : Prop :=
  ((b.curvf &&& c ≠ 0 ∧ ∃ d, L c = some d ∧
      extract b.verts (b.cur + offsetOf vf c) (attribBytes c) = d) ∨
   (b.curvf &&& c = 0 ∧
      extract b.verts (b.cur + offsetOf vf c) (attribBytes c) =
        List.replicate (attribBytes c) 0)) ∧
  LdInv vf n L b c

/-- After a finalization pass, the channel's slot of the current record
holds the last written bytes, or its initial zeros if the channel was
never written. -/
def ChDone (vf : Nat) (L : Nat → Option (List Nat)) (b : VertexBuilder)
    (c : Nat) : Prop :=
  extract b.verts (b.cur + offsetOf vf c) (attribBytes c) =
    (match L c with
     | some d => d
     | none => List.replicate (attribBytes c) 0)

/-- The full invariant after running a non-empty valid operation
sequence on a fresh builder: geometry of the buffer, per-channel
current-record and last-write facts, and the contents of every
finalized record. -/
def RecInv (vf : Nat) (ops : List VOp) (b : VertexBuilder) : Prop :=
  b.vf = vf ∧ b.stride = strideOf vf ∧ 1 ≤ numRecords ops ∧
  b.verts.length = numRecords ops * strideOf vf ∧
  b.cur = (numRecords ops - 1) * strideOf vf ∧
  ∀ c ∈ channelBits, vf &&& c ≠ 0 →
    ChCur vf (numRecords ops) (lastVal ops) b c ∧
    ∀ r, r + 1 < numRecords ops →
      extract b.verts (r * strideOf vf + offsetOf vf c) (attribBytes c) =
        chanVal (takeRecs (r + 1) ops) c

/-! ### Concrete instances used by the claim theorems. -/
/-- The two-vertex sequence of the carry-forward example: vertex 0 sets
position and color, vertex 1 sets only position (format
Position|Color, `vf = 3`). -/
def c1ops : List VOp :=
  [.position ⟨1, 2, 3, 4⟩ ⟨1, 2, 3, 4⟩ ⟨1, 2, 3, 4⟩,
   .color 9 8 7 6,
   .position ⟨5, 5, 5, 5⟩ ⟨6, 6, 6, 6⟩ ⟨7, 7, 7, 7⟩]

/-- The byte buffer the copy-out of `c1ops` produces. -/
def c1bytes : List Nat :=
  match buildBytes 3 c1ops with
  | .ok l => l
  | .error _ => []

/-- The vertex-builder state after running `c1ops` on a fresh builder
of format 3, before any copy-out. -/
def c5state : VertexBuilder :=
  runStateV (runOps c1ops (newVertexBuilder 3))

/-- A position call with all-zero coordinate bytes. -/
def c3posOp : VOp := .position ⟨0, 0, 0, 0⟩ ⟨0, 0, 0, 0⟩ ⟨0, 0, 0, 0⟩

/-- A mesh builder (current `geometry.Builder`) holding 4 vertices and
no index calls. -/
def c3state : Builder :=
  endState (runBOps
    [.vertex c3posOp, .vertex c3posOp, .vertex c3posOp, .vertex c3posOp]
    (newBuilder 1))

/-- An old `gfx.GeometryBuilder` holding 4 vertices (stride 3 float32
words, 12 stored words) on which no index-supplying call was ever made
(`idxs` is the nil slice). -/
def c3g4 : GeometryBuilder :=
  { vf := 1, stride := 3, cur := 9, curvf := 1,
    verts := List.replicate 12 0, idxs := none, nextidx := 0 }

/-- The index builder after one `Indices(0,1,2,2,0,3)` call on a fresh
builder. -/
def c2b1 : IndexBuilder := (newIndexBuilder.indices [0, 1, 2, 2, 0, 3]).1

/-! ## Theorems -/

theorem attribBytes_pos (v : Nat) : 0 < attribBytes v := by
  unfold attribBytes
  split
  · omega
  split
  · omega
  split <;> omega

theorem offsetsFrom_tiles (cs : List Nat) (vf o : Nat) :
    tilesFrom (offsetsFrom cs vf o) o (o + strideFrom cs vf) := by
  induction cs generalizing o with
  | nil => simp [offsetsFrom, strideFrom, tilesFrom]
  | cons c rest ih =>
    by_cases h : vf &&& c ≠ 0
    · simp only [offsetsFrom, strideFrom, if_pos h]
      show o = o ∧ tilesFrom _ (o + attribBytes c) _
      refine ⟨rfl, ?_⟩
      have := ih (o + attribBytes c)
      rwa [Nat.add_assoc] at this
    · simp only [offsetsFrom, strideFrom, if_neg h, tilesFrom]
      simpa using ih o

theorem tilesFrom_le {l : List (Nat × Nat)} {a b : Nat}
    (h : tilesFrom l a b) : a ≤ b := by
  induction l generalizing a with
  | nil => exact h.le
  | cons p rest ih =>
    obtain ⟨c, o⟩ := p
    obtain ⟨-, h2⟩ := h
    have := ih h2
    omega

theorem tilesFrom_mem_bounds {l : List (Nat × Nat)} {a b : Nat}
    (h : tilesFrom l a b) {p : Nat × Nat} (hp : p ∈ l) :
    a ≤ p.2 ∧ p.2 + attribBytes p.1 ≤ b := by
  induction l generalizing a with
  | nil => exact absurd hp (List.not_mem_nil p)
  | cons q rest ih =>
    obtain ⟨c, o⟩ := q
    obtain ⟨ho, h2⟩ := h
    rcases List.mem_cons.mp hp with h | h
    · subst h
      have := tilesFrom_le h2
      subst ho
      constructor
      · exact Nat.le_refl _
      · simpa using this
    · have := ih h2 h
      omega

theorem tilesFrom_disjoint {l : List (Nat × Nat)} {a b : Nat}
    (h : tilesFrom l a b) {p q : Nat × Nat} (hp : p ∈ l) (hq : q ∈ l)
    (hne : p ≠ q) :
    p.2 + attribBytes p.1 ≤ q.2 ∨ q.2 + attribBytes q.1 ≤ p.2 := by
  induction l generalizing a with
  | nil => exact absurd hp (List.not_mem_nil p)
  | cons r rest ih =>
    obtain ⟨c, o⟩ := r
    obtain ⟨ho, h2⟩ := h
    subst ho
    rcases List.mem_cons.mp hp with h1 | h1 <;>
      rcases List.mem_cons.mp hq with h3 | h3
    · exact absurd (h1.trans h3.symm) hne
    · left
      have := (tilesFrom_mem_bounds h2 h3).1
      subst h1
      simpa using this
    · right
      have := (tilesFrom_mem_bounds h2 h1).1
      subst h3
      simpa using this
    · exact ih h2 h1 h3

theorem tilesFrom_cover {l : List (Nat × Nat)} :
    ∀ {a b : Nat}, tilesFrom l a b → ∀ {n : Nat}, a ≤ n → n < b →
      ∃ p ∈ l, p.2 ≤ n ∧ n < p.2 + attribBytes p.1 := by
  induction l with
  | nil =>
    intro a b h n h1 h2
    have hab : a = b := h
    exact absurd h2 (by omega)
  | cons q rest ih =>
    obtain ⟨c, o⟩ := q
    intro a b h n h1 h2
    obtain ⟨ho, hrest⟩ := h
    subst ho
    by_cases hn : n < o + attribBytes c
    · exact ⟨(c, o), List.mem_cons_self _ _, h1, hn⟩
    · obtain ⟨p, hp, hp2⟩ := ih hrest (Nat.le_of_not_lt hn) h2
      exact ⟨p, List.mem_cons_of_mem _ hp, hp2⟩

theorem mem_offsetsFrom_fst {cs : List Nat} {vf o c : Nat} :
    c ∈ (offsetsFrom cs vf o).map Prod.fst ↔ c ∈ cs ∧ vf &&& c ≠ 0 := by
  induction cs generalizing o with
  | nil => simp [offsetsFrom]
  | cons d rest ih =>
    by_cases h : vf &&& d ≠ 0
    · simp only [offsetsFrom, if_pos h, List.map_cons, List.mem_cons, ih,
        List.mem_cons]
      constructor
      · rintro (rfl | ⟨h1, h2⟩)
        · exact ⟨Or.inl rfl, h⟩
        · exact ⟨Or.inr h1, h2⟩
      · rintro ⟨rfl | h1, h2⟩
        · exact Or.inl rfl
        · exact Or.inr ⟨h1, h2⟩
    · simp only [offsetsFrom, if_neg h, ih, List.mem_cons]
      constructor
      · rintro ⟨h1, h2⟩
        exact ⟨Or.inr h1, h2⟩
      · rintro ⟨rfl | h1, h2⟩
        · exact absurd h2 h
        · exact ⟨h1, h2⟩

theorem offsetLookup_mem {l : List (Nat × Nat)} {c : Nat}
    (h : c ∈ l.map Prod.fst) : (c, offsetLookup l c) ∈ l := by
  induction l with
  | nil => simp at h
  | cons p rest ih =>
    obtain ⟨d, o⟩ := p
    by_cases hd : d = c
    · subst hd
      simp [offsetLookup]
    · simp only [List.map_cons, List.mem_cons] at h
      rcases h with h | h

      · exact absurd h.symm hd
      · simpa [offsetLookup, hd] using Or.inr (ih h)

/-- Membership form used throughout: a present channel's looked-up
offset is an entry of the table. -/
theorem offsetOf_mem {vf c : Nat} (hc : c ∈ channelBits)
    (h : vf &&& c ≠ 0) : (c, offsetOf vf c) ∈ offsetsOf vf :=
  offsetLookup_mem (mem_offsetsFrom_fst.mpr ⟨hc, h⟩)

/-- A present channel's byte range lies inside `[0, Stride)`. -/
theorem offsetOf_add_le {vf c : Nat} (hc : c ∈ channelBits)
    (h : vf &&& c ≠ 0) : offsetOf vf c + attribBytes c ≤ strideOf vf := by
  have := tilesFrom_mem_bounds (offsetsFrom_tiles channelBits vf 0)
    (offsetOf_mem hc h)
  simpa [strideOf] using this.2

/-- Distinct present channels have disjoint byte ranges. -/
theorem offsetOf_disjoint {vf c d : Nat} (hc : c ∈ channelBits)
    (hd : d ∈ channelBits) (h1 : vf &&& c ≠ 0) (h2 : vf &&& d ≠ 0)
    (hne : c ≠ d) :
    offsetOf vf c + attribBytes c ≤ offsetOf vf d ∨
      offsetOf vf d + attribBytes d ≤ offsetOf vf c := by
  have := tilesFrom_disjoint (offsetsFrom_tiles channelBits vf 0)
    (offsetOf_mem hc h1) (offsetOf_mem hd h2)
    (by simp only [ne_eq, Prod.mk.injEq, not_and]; exact fun h => absurd h hne)
  simpa using this

theorem strideOf_pos {vf c : Nat} (hc : c ∈ channelBits)
    (h : vf &&& c ≠ 0) : 0 < strideOf vf := by
  have h1 := offsetOf_add_le hc h
  have h2 := attribBytes_pos c
  omega

theorem tilesFrom_sum {l : List (Nat × Nat)} {a b : Nat}
    (h : tilesFrom l a b) :
    a + l.foldr (fun p acc => attribBytes p.1 + acc) 0 = b := by
  induction l generalizing a with
  | nil =>
    have hab : a = b := h
    simp [hab]
  | cons q rest ih =>
    obtain ⟨c, o⟩ := q
    obtain ⟨ho, h2⟩ := h
    have := ih h2
    simp only [List.foldr_cons]
    omega

theorem length_writeAt {l d : List Nat} {o : Nat}
    (h : o + d.length ≤ l.length) : (writeAt l o d).length = l.length := by
  simp only [writeAt, List.length_append, List.length_take, List.length_drop]
  omega

theorem length_extract {l : List Nat} {o n : Nat} (h : o + n ≤ l.length) :
    (extract l o n).length = n := by
  simp only [extract, List.length_take, List.length_drop]
  omega

theorem extract_writeAt_self {l d : List Nat} {o : Nat}
    (h : o + d.length ≤ l.length) :
    extract (writeAt l o d) o d.length = d := by
  have hlen : (l.take o).length = o := by
    simp only [List.length_take]
    omega
  simp only [extract, writeAt, List.append_assoc]
  rw [List.drop_append_eq_append_drop, List.drop_eq_nil_of_le (le_of_eq hlen),
    hlen, Nat.sub_self, List.drop_zero, List.nil_append, List.take_left]

theorem extract_append_left {l1 l2 : List Nat} {o n : Nat}
    (h : o + n ≤ l1.length) :
    extract (l1 ++ l2) o n = extract l1 o n := by
  simp only [extract, List.drop_append_eq_append_drop,
    List.take_append_eq_append_take, List.length_drop]
  rw [Nat.sub_eq_zero_of_le (show n ≤ l1.length - o by omega), List.take_zero,
    List.append_nil]

theorem extract_append_right {l1 l2 : List Nat} {o n : Nat} :
    extract (l1 ++ l2) (l1.length + o) n = extract l2 o n := by
  simp only [extract]
  rw [List.drop_append_eq_append_drop, List.drop_eq_nil_of_le (by omega),
    Nat.add_sub_cancel_left, List.nil_append]

theorem extract_writeAt_left {l d : List Nat} {o o' n : Nat}
    (h : o' + n ≤ o) (hw : o ≤ l.length) :
    extract (writeAt l o d) o' n = extract l o' n := by
  have h1 : extract (writeAt l o d) o' n = extract (l.take o) o' n := by
    simp only [writeAt, List.append_assoc]
    exact extract_append_left (by simp only [List.length_take]; omega)
  rw [h1]
  simp only [extract, List.drop_take, List.take_take,
    Nat.min_eq_left (by omega : n ≤ o - o')]

theorem extract_writeAt_right {l d : List Nat} {o o' n : Nat}
    (h : o + d.length ≤ o') (hw : o + d.length ≤ l.length) :
    extract (writeAt l o d) o' n = extract l o' n := by
  have hlen : (l.take o ++ d).length = o + d.length := by
    simp only [List.length_append, List.length_take]
    omega
  have h2 : extract l o' n = extract (l.drop (o + d.length)) (o' - (o + d.length)) n := by
    simp only [extract, List.drop_drop]
    rw [Nat.add_sub_cancel' h]
  rw [h2]
  simp only [writeAt, extract, List.append_assoc]
  rw [← List.append_assoc, List.drop_append_eq_append_drop,
    List.drop_eq_nil_of_le (by omega), hlen, List.nil_append]

theorem extract_replicate_zero {k o n z : Nat} (h : o + n ≤ k) :
    extract (List.replicate k z) o n = List.replicate n z := by
  simp only [extract, List.drop_replicate, List.take_replicate]
  rw [Nat.min_eq_left (by omega)]

theorem extract_all {l : List Nat} : extract l 0 l.length = l := by
  simp [extract]

/-! ### Bit-set facts about channel bits (each is a power of two). -/
theorem channelBits_pow {c : Nat} (hc : c ∈ channelBits) :
    ∃ k ∈ List.range 18, c = 2 ^ k := by
  fin_cases hc <;> decide

theorem lor_and_self {x c : Nat} (hc : c ∈ channelBits) :
    (x ||| c) &&& c ≠ 0 := by
  obtain ⟨k, -, rfl⟩ := channelBits_pow hc
  rw [Nat.and_two_pow, Nat.testBit_lor, Nat.testBit_two_pow_self, Bool.or_true]
  have := Nat.two_pow_pos k
  simp only [Bool.toNat_true]
  omega

theorem lor_and_other {x c d : Nat} (hc : c ∈ channelBits)
    (hd : d ∈ channelBits) (hne : d ≠ c) :
    (x ||| d) &&& c = x &&& c := by
  obtain ⟨k, -, rfl⟩ := channelBits_pow hc
  obtain ⟨j, -, rfl⟩ := channelBits_pow hd
  have hkj : j ≠ k := fun h => hne (by rw [h])
  rw [Nat.and_two_pow, Nat.and_two_pow, Nat.testBit_lor,
    Nat.testBit_two_pow_of_ne hkj, Bool.or_false]

theorem zero_and_ch (c : Nat) : (0 : Nat) &&& c = 0 := Nat.zero_and c

/-! ### Lemmas about the spec-side readings of vertex-operation lists. -/
theorem numRecords_cons (x : VOp) (rest : List VOp) :
    numRecords (x :: rest) = (if x.isPos then 1 else 0) + numRecords rest := rfl

theorem numRecords_append (l : List VOp) (op : VOp) :
    numRecords (l ++ [op]) = numRecords l + (if op.isPos then 1 else 0) := by
  induction l with
  | nil => simp [numRecords]
  | cons x rest ih =>
    have h1 : numRecords ((x :: rest) ++ [op]) =
        (if x.isPos then 1 else 0) + numRecords (rest ++ [op]) := rfl
    rw [h1, ih, numRecords_cons]
    omega

theorem lastVal_append (l : List VOp) (op : VOp) (c : Nat) :
    lastVal (l ++ [op]) c =
      if op.channel = c then some op.data else lastVal l c := by
  simp [lastVal, List.foldl_append]

theorem takeRecs_cons_pos {x : VOp} (hp : x.isPos) (k : Nat)
    (rest : List VOp) :
    takeRecs (k + 1) (x :: rest) = x :: takeRecs k rest := by
  simp [takeRecs, hp]

theorem takeRecs_cons_pos_zero {x : VOp} (hp : x.isPos) (rest : List VOp) :
    takeRecs 0 (x :: rest) = [] := by
  simp [takeRecs, hp]

theorem takeRecs_cons_neg {x : VOp} (hp : ¬x.isPos = true) (k : Nat)
    (rest : List VOp) :
    takeRecs k (x :: rest) = x :: takeRecs k rest := by
  simp [takeRecs, hp]

theorem takeRecs_all {k : Nat} {l : List VOp} (h : numRecords l ≤ k) :
    takeRecs k l = l := by
  induction l generalizing k with
  | nil => rfl
  | cons op rest ih =>
    rw [numRecords_cons] at h
    by_cases hp : op.isPos
    · rw [if_pos hp] at h
      rcases k with _ | k1
      · omega
      · rw [takeRecs_cons_pos hp, ih (by omega)]
    · rw [if_neg hp] at h
      rw [takeRecs_cons_neg hp, ih (by omega)]

theorem takeRecs_append_lt {k : Nat} {l : List VOp} (op : VOp)
    (h : k < numRecords l) : takeRecs k (l ++ [op]) = takeRecs k l := by
  induction l generalizing k with
  | nil => simp [numRecords] at h
  | cons x rest ih =>
    rw [numRecords_cons] at h
    have hcons : (x :: rest) ++ [op] = x :: (rest ++ [op]) := rfl
    rw [hcons]
    by_cases hp : x.isPos
    · rw [if_pos hp] at h
      rcases k with _ | k1
      · rw [takeRecs_cons_pos_zero hp, takeRecs_cons_pos_zero hp]
      · rw [takeRecs_cons_pos hp, takeRecs_cons_pos hp]
        exact congrArg (x :: ·) (ih (by omega))
    · rw [if_neg hp] at h
      rw [takeRecs_cons_neg hp, takeRecs_cons_neg hp]
      exact congrArg (x :: ·) (ih (by omega))

theorem takeRecs_append_pos {k : Nat} {l : List VOp} {op : VOp}
    (hop : op.isPos) (h : numRecords l = k) : takeRecs k (l ++ [op]) = l := by
  induction l generalizing k with
  | nil =>
    have h0 : numRecords ([] : List VOp) = 0 := rfl
    rw [h0] at h
    subst h
    simp [takeRecs, hop]
  | cons x rest ih =>
    rw [numRecords_cons] at h
    have hcons : (x :: rest) ++ [op] = x :: (rest ++ [op]) := rfl
    rw [hcons]
    by_cases hp : x.isPos
    · rw [if_pos hp] at h
      rcases k with _ | k1
      · omega
      · rw [takeRecs_cons_pos hp]
        exact congrArg (x :: ·) (ih (by omega))
    · rw [if_neg hp] at h
      rw [takeRecs_cons_neg hp]
      exact congrArg (x :: ·) (ih (by omega))

theorem VOp.data_length (op : VOp) :
    op.data.length = attribBytes op.channel := by
  cases op <;> simp [VOp.data, VOp.channel, B4.bytes, attribBytes,
    vertexPosition, vertexColor, vertexNormal, vertexTexcoord]

theorem VOp.channel_mem (op : VOp) : op.channel ∈ channelBits := by
  cases op <;> simp [VOp.channel, channelBits, vertexPosition, vertexColor,
    vertexNormal, vertexTexcoord]

theorem lastVal_from_length {ops : List VOp} {c : Nat}
    {acc : Option (List Nat)}
    (hacc : ∀ d, acc = some d → d.length = attribBytes c) :
    ∀ d, ops.foldl
        (fun a op => if op.channel = c then some op.data else a) acc = some d →
      d.length = attribBytes c := by
  induction ops generalizing acc with
  | nil => exact hacc
  | cons op rest ih =>
    intro d hd
    refine ih (fun d1 hd1 => ?_) d hd
    have hd2 : (if op.channel = c then some op.data else acc) = some d1 := hd1
    by_cases hch : op.channel = c
    · rw [if_pos hch] at hd2
      have := VOp.data_length op
      rw [hch] at this
      rw [← Option.some_inj.mp hd2]
      exact this
    · rw [if_neg hch] at hd2
      exact hacc d1 hd2

theorem lastVal_length {ops : List VOp} {c : Nat} {d : List Nat}
    (h : lastVal ops c = some d) : d.length = attribBytes c :=
  lastVal_from_length (fun d1 hd1 => by simp at hd1) d h

theorem chanVal_length (ops : List VOp) (c : Nat) :
    (chanVal ops c).length = attribBytes c := by
  unfold chanVal
  match hlv : lastVal ops c with
  | some d => exact lastVal_length hlv
  | none => simp

theorem channelBits_nodup : channelBits.Nodup := by decide

/-- Successful-path characterization of `VertexBuilder.set`. -/
theorem set_ok {b : VertexBuilder} {c : Nat} (d : List Nat)
    (hvf : b.vf &&& c ≠ 0)
    (hb : b.cur + offsetOf b.vf c + d.length ≤ b.verts.length) :
    b.set c d = .ok
      { b with
        curvf := b.curvf ||| c,
        lastdata := fun x =>
          if x = c then some (b.cur + offsetOf b.vf c) else b.lastdata x,
        verts := writeAt b.verts (b.cur + offsetOf b.vf c) d } := by
  unfold VertexBuilder.set
  rw [if_neg hvf]
  rw [if_pos hb]

/-- A write does not change a disjoint slice. -/
theorem extract_writeAt_disj {l d : List Nat} {wo so sz : Nat}
    (hdisj : so + sz ≤ wo ∨ wo + d.length ≤ so)
    (hw : wo + d.length ≤ l.length) :
    extract (writeAt l wo d) so sz = extract l so sz := by
  rcases hdisj with h | h
  · exact extract_writeAt_left h (by omega)
  · exact extract_writeAt_right h hw

/-- Distinct (record, channel) slots of an interleaved buffer are
disjoint byte ranges. -/
theorem slot_disjoint {vf c c' r r' : Nat} (hc : c ∈ channelBits)
    (hc' : c' ∈ channelBits) (h1 : vf &&& c ≠ 0) (h2 : vf &&& c' ≠ 0)
    (hne : r ≠ r' ∨ c ≠ c') :
    r * strideOf vf + offsetOf vf c + attribBytes c ≤
        r' * strideOf vf + offsetOf vf c' ∨
      r' * strideOf vf + offsetOf vf c' + attribBytes c' ≤
        r * strideOf vf + offsetOf vf c := by
  have hb1 := offsetOf_add_le hc h1
  have hb2 := offsetOf_add_le hc' h2
  rcases Nat.lt_trichotomy r r' with hr | hr | hr
  · left
    have : (r + 1) * strideOf vf ≤ r' * strideOf vf :=
      Nat.mul_le_mul_right _ (by omega)
    have h3 : (r + 1) * strideOf vf = r * strideOf vf + strideOf vf := by ring
    omega
  · subst hr
    have hcc : c ≠ c' := by
      rcases hne with h | h
      · omega
      · exact h
    rcases offsetOf_disjoint hc hc' h1 h2 hcc with h | h
    · left
      omega
    · right
      omega
  · right
    have : (r' + 1) * strideOf vf ≤ r * strideOf vf :=
      Nat.mul_le_mul_right _ (by omega)
    have h3 : (r' + 1) * strideOf vf = r' * strideOf vf + strideOf vf := by
      ring
    omega

/-- The finalization pass `fillVertex`, processed over a sublist of the
channel bits: it succeeds, writes only into the current record, leaves
channels outside the processed list untouched, and afterwards every
processed present channel's slot of the current record holds the last
written bytes (zeros if never written) with a valid `lastdata` entry. -/
theorem pred_mul_succ {n s : Nat} (h : 1 ≤ n) : (n - 1) * s + s = n * s := by
  cases n with
  | zero => omega
  | succ m =>
    simp only [Nat.succ_sub_one]
    ring

theorem fillFrom_spec (vf n : Nat) (L : Nat → Option (List Nat))
    (HL : ∀ c d, L c = some d → d.length = attribBytes c) :
    ∀ (cs : List Nat) (b : VertexBuilder), cs.Sublist channelBits →
      b.vf = vf → b.stride = strideOf vf →
      b.cur = (n - 1) * strideOf vf → 1 ≤ n →
      b.verts.length = n * strideOf vf →
      (∀ c ∈ cs, vf &&& c ≠ 0 → ChCur vf n L b c) →
      ∃ b', VertexBuilder.fillFrom cs b = .ok b' ∧
        b'.vf = vf ∧ b'.stride = strideOf vf ∧ b'.cur = b.cur ∧
        b'.verts.length = b.verts.length ∧
        (∀ o k, o + k ≤ b.cur → extract b'.verts o k = extract b.verts o k) ∧
        (∀ c ∈ cs, vf &&& c ≠ 0 → ChDone vf L b' c ∧ LdInv vf n L b' c) ∧
        (∀ c, c ∉ cs → b'.lastdata c = b.lastdata c) ∧
        (∀ c ∈ channelBits, vf &&& c ≠ 0 → c ∉ cs →
          extract b'.verts (b.cur + offsetOf vf c) (attribBytes c) =
            extract b.verts (b.cur + offsetOf vf c) (attribBytes c)) := by
  intro cs
  induction cs with
  | nil =>
    intro b _ h1 h2 h3 h4 h5 _
    exact ⟨b, rfl, h1, h2, rfl, rfl, fun _ _ _ => rfl, by simp,
      fun _ _ => rfl, fun _ _ _ _ => rfl⟩
  | cons c cs' ih =>
    intro b hsub hvf hstr hcur hn hlen hch
    have hc_mem : c ∈ channelBits := hsub.subset (List.mem_cons_self _ _)
    have hcs'_sub : cs'.Sublist channelBits :=
      List.sublist_of_cons_sublist hsub
    have hc_notin : c ∉ cs' :=
      (List.nodup_cons.mp (hsub.nodup channelBits_nodup)).1
    rcases hld : b.lastdata c with _ | o
    · -- no last write recorded for `c`: skip
      have hstep : VertexBuilder.fillFrom (c :: cs') b =
          VertexBuilder.fillFrom cs' b := by
        simp only [VertexBuilder.fillFrom, hld]
      obtain ⟨b', he, p1, p2, p3, p4, p5, p6, p7, p8⟩ :=
        ih b hcs'_sub hvf hstr hcur hn hlen
          (fun c1 hc1 hp1 => hch c1 (List.mem_cons_of_mem _ hc1) hp1)
      refine ⟨b', by rw [hstep]; exact he, p1, p2, p3, p4, p5, ?_, ?_, ?_⟩
      · intro c1 hc1 hp1
        rcases List.mem_cons.mp hc1 with rfl | hc1
        · -- head channel: never written, slot still zero
          obtain ⟨hdisj, hlinv⟩ := hch c1 (List.mem_cons_self _ _) hp1
          have hLn : L c1 = none := by
            unfold LdInv at hlinv
            rw [hld] at hlinv
            exact hlinv
          have hzero : extract b.verts (b.cur + offsetOf vf c1)
              (attribBytes c1) = List.replicate (attribBytes c1) 0 := by
            rcases hdisj with ⟨-, d, hd, -⟩ | ⟨-, hz⟩
            · rw [hLn] at hd
              exact absurd hd (by simp)
            · exact hz
          constructor
          · unfold ChDone
            rw [hLn, p3, p8 c1 hc_mem hp1 hc_notin]
            exact hzero
          · unfold LdInv
            rw [p7 c1 hc_notin, hld, hLn]
        · exact p6 c1 hc1 hp1
      · intro c1 hc1
        exact p7 c1 (fun hmem => hc1 (List.mem_cons_of_mem _ hmem))
      · intro c1 hm1 hp1 hc1
        exact p8 c1 hm1 hp1 (fun hmem => hc1 (List.mem_cons_of_mem _ hmem))
    · by_cases hg : b.vf &&& c ≠ 0 ∧ b.curvf &&& c = 0
      · -- the fill branch: copy the last bytes into the current record
        have hgp : vf &&& c ≠ 0 := by rw [← hvf]; exact hg.1
        obtain ⟨hdisj, hlinv⟩ := hch c (List.mem_cons_self _ _) hgp
        have hlsome : ∃ r d, r < n ∧
            o = r * strideOf vf + offsetOf vf c ∧ L c = some d ∧
            extract b.verts o (attribBytes c) = d := by
          unfold LdInv at hlinv
          rw [hld] at hlinv
          exact hlinv
        obtain ⟨r, d, hr, ho, hLc, hdata⟩ := hlsome
        have hoffsz := offsetOf_add_le hc_mem hgp
        have hdlen : d.length = attribBytes c := HL c d hLc
        have hns := pred_mul_succ (s := strideOf vf) hn
        have hob : o + attribBytes c ≤ b.verts.length := by
          rw [ho, hlen]
          have h4 : (r + 1) * strideOf vf ≤ n * strideOf vf :=
            Nat.mul_le_mul_right _ (by omega)
          have h3 : (r + 1) * strideOf vf = r * strideOf vf + strideOf vf := by
            ring
          omega
        have hexlen : (extract b.verts o (attribBytes c)).length =
            attribBytes c := length_extract hob
        have hwoff : b.cur + offsetOf vf c + attribBytes c ≤
            b.verts.length := by
          rw [hlen, hcur]
          omega
        have hwb : b.cur + offsetOf b.vf c +
            (extract b.verts o (attribBytes c)).length ≤ b.verts.length := by
          rw [hvf, hexlen]
          exact hwoff
        have hset := set_ok (extract b.verts o (attribBytes c))
          (by rw [hvf]; exact hgp) hwb
        set b1 : VertexBuilder :=
          { b with
            curvf := b.curvf ||| c,
            lastdata := fun x =>
              if x = c then some (b.cur + offsetOf b.vf c)
              else b.lastdata x,
            verts := writeAt b.verts (b.cur + offsetOf b.vf c)
              (extract b.verts o (attribBytes c)) } with hb1
        have hstep : VertexBuilder.fillFrom (c :: cs') b =
            VertexBuilder.fillFrom cs' b1 := by
          simp only [VertexBuilder.fillFrom, hld]
          rw [if_pos hg, if_pos hob, hset]
        -- projection facts about the post-write state; `b1` is never
        -- unfolded again below
        have hb1vf : b1.vf = vf := hvf
        have hb1stride : b1.stride = strideOf vf := hstr
        have hb1cur : b1.cur = b.cur := rfl
        have hb1curvf : b1.curvf = b.curvf ||| c := rfl
        have hb1ldc : b1.lastdata c = some (b.cur + offsetOf vf c) := by
          show (if c = c then some (b.cur + offsetOf b.vf c)
            else b.lastdata c) = _
          rw [if_pos rfl, hvf]
        have hb1ldne : ∀ x, x ≠ c → b1.lastdata x = b.lastdata x := by
          intro x hx
          show (if x = c then some (b.cur + offsetOf b.vf c)
            else b.lastdata x) = _
          rw [if_neg hx]
        have hb1verts : b1.verts =
            writeAt b.verts (b.cur + offsetOf vf c)
              (extract b.verts o (attribBytes c)) := by
          rw [hb1, hvf]
        clear hb1 hset
        have hb1len : b1.verts.length = n * strideOf vf := by
          rw [hb1verts, length_writeAt (by rw [hexlen]; exact hwoff)]
          exact hlen
        -- writes stay inside channel `c`'s slot of the current record
        have hpres : ∀ c1, c1 ∈ channelBits → vf &&& c1 ≠ 0 →
            ∀ r1, r1 < n → (r1 ≠ n - 1 ∨ c1 ≠ c) →
            extract b1.verts (r1 * strideOf vf + offsetOf vf c1)
                (attribBytes c1) =
              extract b.verts (r1 * strideOf vf + offsetOf vf c1)
                (attribBytes c1) := by
          intro c1 hm1 hp1 r1 hr1 hne2
          rw [hb1verts]
          refine extract_writeAt_disj ?_ (by rw [hexlen]; exact hwoff)
          rw [hexlen, hcur]
          exact slot_disjoint hm1 hc_mem hp1 hgp hne2
        have hpresCur : ∀ c1, c1 ∈ channelBits → vf &&& c1 ≠ 0 → c1 ≠ c →
            extract b1.verts (b.cur + offsetOf vf c1) (attribBytes c1) =
              extract b.verts (b.cur + offsetOf vf c1) (attribBytes c1) := by
          intro c1 hm1 hp1 hne1
          have h5 := hpres c1 hm1 hp1 (n - 1) (by omega) (Or.inr hne1)
          rw [← hcur] at h5
          exact h5
        -- the value now in channel `c`'s slot of the current record
        have hselfslot : extract b1.verts (b.cur + offsetOf vf c)
            (attribBytes c) = d := by
          rw [hb1verts]
          have h5 := extract_writeAt_self
            (l := b.verts) (d := extract b.verts o (attribBytes c))
            (o := b.cur + offsetOf vf c) (by rw [hexlen]; exact hwoff)
          rw [hexlen] at h5
          rw [h5]
          exact hdata
        -- recursion preconditions on the post-write state
        have hch1 : ∀ c1 ∈ cs', vf &&& c1 ≠ 0 → ChCur vf n L b1 c1 := by
          intro c1 hc1 hp1
          have hne : c1 ≠ c := fun h => hc_notin (h ▸ hc1)
          have hm1 : c1 ∈ channelBits := hcs'_sub.subset hc1
          obtain ⟨hdisj1, hlinv1⟩ :=
            hch c1 (List.mem_cons_of_mem _ hc1) hp1
          have hcv1 : b1.curvf &&& c1 = b.curvf &&& c1 := by
            rw [hb1curvf]
            exact lor_and_other hm1 hc_mem (fun h => hne h.symm)
          constructor
          · rcases hdisj1 with ⟨ha, dd, hdd, hexd⟩ | ⟨ha, hz⟩
            · left
              refine ⟨by rw [hcv1]; exact ha, dd, hdd, ?_⟩
              rw [hb1cur, hpresCur c1 hm1 hp1 hne]
              exact hexd
            · right
              refine ⟨by rw [hcv1]; exact ha, ?_⟩
              rw [hb1cur, hpresCur c1 hm1 hp1 hne]
              exact hz
          · unfold LdInv at hlinv1 ⊢
            rw [hb1ldne c1 hne]
            rcases hld2 : b.lastdata c1 with _ | o1
            · rw [hld2] at hlinv1
              exact hlinv1
            · rw [hld2] at hlinv1
              obtain ⟨r1, d1, hr1, ho1, hL1, hex1⟩ := hlinv1
              refine ⟨r1, d1, hr1, ho1, hL1, ?_⟩
              rw [ho1, hpres c1 hm1 hp1 r1 hr1 (Or.inr hne), ← ho1]
              exact hex1
        obtain ⟨b', he, p1, p2, p3, p4, p5, p6, p7, p8⟩ :=
          ih b1 hcs'_sub hb1vf hb1stride (by rw [hb1cur]; exact hcur) hn
            hb1len hch1
        refine ⟨b', by rw [hstep]; exact he, p1, p2,
          by rw [p3, hb1cur], by rw [p4, hb1len, hlen], ?_, ?_, ?_, ?_⟩
        · -- agreement below the current record
          intro o2 k2 hk2
          rw [p5 o2 k2 (by rw [hb1cur]; exact hk2), hb1verts]
          exact extract_writeAt_disj (Or.inl (by omega))
            (by rw [hexlen]; exact hwoff)
        · intro c1 hc1 hp1
          rcases List.mem_cons.mp hc1 with rfl | hc1
          · -- the head channel: now filled with its last written bytes
            have h9 := p8 c1 hc_mem hp1 hc_notin
            rw [hb1cur] at h9
            have hdone : ChDone vf L b' c1 := by
              unfold ChDone
              rw [hLc]
              show extract b'.verts (b'.cur + offsetOf vf c1)
                (attribBytes c1) = d
              rw [p3, hb1cur, h9]
              exact hselfslot
            refine ⟨hdone, ?_⟩
            unfold LdInv
            rw [p7 c1 hc_notin, hb1ldc]
            refine ⟨n - 1, d, by omega, by rw [hcur], hLc, ?_⟩
            rw [h9]
            exact hselfslot
          · exact p6 c1 hc1 hp1
        · intro c1 hc1
          have hne : c1 ≠ c := fun h => hc1 (h ▸ List.mem_cons_self _ _)
          rw [p7 c1 (fun hmem => hc1 (List.mem_cons_of_mem _ hmem)),
            hb1ldne c1 hne]
        · intro c1 hm1 hp1 hc1
          have hne : c1 ≠ c := fun h => hc1 (h ▸ List.mem_cons_self _ _)
          have h9 := p8 c1 hm1 hp1
            (fun hmem => hc1 (List.mem_cons_of_mem _ hmem))
          rw [hb1cur] at h9
          rw [h9]
          exact hpresCur c1 hm1 hp1 hne
      · -- channel absent from the format or already set on this record
        have hstep : VertexBuilder.fillFrom (c :: cs') b =
            VertexBuilder.fillFrom cs' b := by
          simp only [VertexBuilder.fillFrom, hld]
          rw [if_neg hg]
        obtain ⟨b', he, p1, p2, p3, p4, p5, p6, p7, p8⟩ :=
          ih b hcs'_sub hvf hstr hcur hn hlen
            (fun c1 hc1 hp1 => hch c1 (List.mem_cons_of_mem _ hc1) hp1)
        refine ⟨b', by rw [hstep]; exact he, p1, p2, p3, p4, p5, ?_, ?_, ?_⟩
        · intro c1 hc1 hp1
          rcases List.mem_cons.mp hc1 with rfl | hc1
          · -- head channel: already set on the current record
            have hcv : b.curvf &&& c1 ≠ 0 := fun h0 =>
              hg ⟨by rw [hvf]; exact hp1, h0⟩
            obtain ⟨hdisj, hlinv⟩ := hch c1 (List.mem_cons_self _ _) hp1
            have hval : ∃ dd, L c1 = some dd ∧
                extract b.verts (b.cur + offsetOf vf c1) (attribBytes c1) =
                  dd := by
              rcases hdisj with ⟨-, dd, hdd, hexd⟩ | ⟨hz, -⟩
              · exact ⟨dd, hdd, hexd⟩
              · exact absurd hz hcv
            obtain ⟨dd, hdd, hexd⟩ := hval
            constructor
            · unfold ChDone
              rw [hdd]
              show extract b'.verts (b'.cur + offsetOf vf c1)
                (attribBytes c1) = dd
              rw [p3, p8 c1 hc_mem hp1 hc_notin]
              exact hexd
            · unfold LdInv at hlinv ⊢
              rw [p7 c1 hc_notin]
              rcases hld2 : b.lastdata c1 with _ | o1
              · rw [hld2] at hlinv
                exact hlinv
              · rw [hld2] at hlinv
                obtain ⟨r1, d1, hr1, ho1, hL1, hex1⟩ := hlinv
                refine ⟨r1, d1, hr1, ho1, hL1, ?_⟩
                by_cases hrr : r1 + 1 < n
                · rw [ho1, p5 _ _ ?_]
                  · rw [← ho1]
                    exact hex1
                  · have hb2 := offsetOf_add_le hc_mem hp1
                    have h4 : (r1 + 1) * strideOf vf ≤
                        (n - 1) * strideOf vf :=
                      Nat.mul_le_mul_right _ (by omega)
                    have h3 : (r1 + 1) * strideOf vf =
                        r1 * strideOf vf + strideOf vf := by ring
                    rw [hcur]
                    omega
                · have hr1n : r1 = n - 1 := by omega
                  have h9 := p8 c1 hc_mem hp1 hc_notin
                  rw [ho1, hr1n, ← hcur]
                  rw [h9]
                  rw [ho1, hr1n, ← hcur] at hex1
                  exact hex1
          · exact p6 c1 hc1 hp1
        · intro c1 hc1
          exact p7 c1 (fun hmem => hc1 (List.mem_cons_of_mem _ hmem))
        · intro c1 hm1 hp1 hc1
          exact p8 c1 hm1 hp1 (fun hmem => hc1 (List.mem_cons_of_mem _ hmem))

/-- `fillVertex` on a builder with an empty `lastdata` map does
nothing. -/
theorem fillFrom_none (cs : List Nat) (b : VertexBuilder)
    (h : ∀ c ∈ cs, b.lastdata c = none) :
    VertexBuilder.fillFrom cs b = .ok b := by
  induction cs with
  | nil => rfl
  | cons c rest ih =>
    have hc := h c (List.mem_cons_self _ _)
    simp only [VertexBuilder.fillFrom, hc]
    exact ih (fun c1 hc1 => h c1 (List.mem_cons_of_mem _ hc1))

theorem runOps_append (l1 l2 : List VOp) (b : VertexBuilder) :
    runOps (l1 ++ l2) b = (runOps l1 b).bind (runOps l2) := by
  induction l1 generalizing b with
  | nil => rfl
  | cons op rest ih =>
    have h1 : runOps ((op :: rest) ++ l2) b =
        (op.apply b).bind (runOps (rest ++ l2)) := rfl
    have h2 : runOps (op :: rest) b = (op.apply b).bind (runOps rest) := rfl
    rw [h1, h2]
    rcases op.apply b with e | b1
    · rfl
    · exact ih b1

/-- Writing into channel `ch`'s slot of the last record of an
`n`-record buffer leaves every other slot unchanged. -/
theorem write_slot_pres {vf n : Nat} {l : List Nat} {ch : Nat}
    {d : List Nat} (hm : ch ∈ channelBits) (hp : vf &&& ch ≠ 0)
    (hlen : l.length = n * strideOf vf) (hn : 1 ≤ n)
    (hdlen : d.length = attribBytes ch) :
    ∀ c1 ∈ channelBits, vf &&& c1 ≠ 0 → ∀ r1, r1 < n →
      (r1 ≠ n - 1 ∨ c1 ≠ ch) →
      extract (writeAt l ((n - 1) * strideOf vf + offsetOf vf ch) d)
          (r1 * strideOf vf + offsetOf vf c1) (attribBytes c1) =
        extract l (r1 * strideOf vf + offsetOf vf c1) (attribBytes c1) := by
  intro c1 hm1 hp1 r1 hr1 hne
  have hoffsz := offsetOf_add_le hm hp
  have hns := pred_mul_succ (s := strideOf vf) hn
  refine extract_writeAt_disj ?_ ?_
  · rw [hdlen]
    exact slot_disjoint hm1 hm hp1 hp hne
  · rw [hdlen, hlen]
    have h4 : (n - 1 + 1) * strideOf vf ≤ n * strideOf vf :=
      Nat.mul_le_mul_right _ (by omega)
    have h3 : (n - 1 + 1) * strideOf vf =
        (n - 1) * strideOf vf + strideOf vf := by ring
    omega

/-- The written slot itself holds the written bytes. -/
theorem write_slot_self {vf n : Nat} {l : List Nat} {ch : Nat}
    {d : List Nat} (hm : ch ∈ channelBits) (hp : vf &&& ch ≠ 0)
    (hlen : l.length = n * strideOf vf) (hn : 1 ≤ n)
    (hdlen : d.length = attribBytes ch) :
    extract (writeAt l ((n - 1) * strideOf vf + offsetOf vf ch) d)
        ((n - 1) * strideOf vf + offsetOf vf ch) (attribBytes ch) = d := by
  have hoffsz := offsetOf_add_le hm hp
  have hns := pred_mul_succ (s := strideOf vf) hn
  have hb : (n - 1) * strideOf vf + offsetOf vf ch + d.length ≤ l.length := by
    rw [hdlen, hlen]
    omega
  have h5 := extract_writeAt_self hb
  rw [hdlen] at h5
  exact h5

/-- A finalized-record slot lies below the current record start. -/
theorem slot_below_cur {vf n r c : Nat} (hm : c ∈ channelBits)
    (hp : vf &&& c ≠ 0) (hr : r + 1 < n) :
    r * strideOf vf + offsetOf vf c + attribBytes c ≤
      (n - 1) * strideOf vf := by
  have hoffsz := offsetOf_add_le hm hp
  have h4 : (r + 1) * strideOf vf ≤ (n - 1) * strideOf vf :=
    Nat.mul_le_mul_right _ (by omega)
  have h3 : (r + 1) * strideOf vf = r * strideOf vf + strideOf vf := by ring
  omega

/-- One per-channel setter call preserves the invariant, extending the
operation list. -/
theorem setter_step {vf : Nat} {l : List VOp} {b : VertexBuilder} {op : VOp}
    (hinv : RecInv vf l b) (hnp : op.isPos = false)
    (hp : vf &&& op.channel ≠ 0) :
    ∃ b2, op.apply b = .ok b2 ∧ RecInv vf (l ++ [op]) b2 := by
  have happ : op.apply b = b.set op.channel op.data := by
    cases op
    · simp [VOp.isPos] at hnp
    · rfl
    · rfl
    · rfl
  obtain ⟨hvf, hstr, hn, hlen, hcur, hchan⟩ := hinv
  have hm := op.channel_mem
  have hdlen := op.data_length
  have hoffsz := offsetOf_add_le hm hp
  have hns := pred_mul_succ (n := numRecords l) (s := strideOf vf) hn
  have hwb' : b.cur + offsetOf vf op.channel + op.data.length ≤
      b.verts.length := by
    rw [hdlen, hcur, hlen]
    omega
  have hwb : b.cur + offsetOf b.vf op.channel + op.data.length ≤
      b.verts.length := by
    rw [hvf]
    exact hwb'
  have hset := set_ok op.data (by rw [hvf]; exact hp) hwb
  set b2 : VertexBuilder :=
    { b with
      curvf := b.curvf ||| op.channel,
      lastdata := fun x =>
        if x = op.channel then some (b.cur + offsetOf b.vf op.channel)
        else b.lastdata x,
      verts := writeAt b.verts (b.cur + offsetOf b.vf op.channel)
        op.data } with hb2
  have hb2vf : b2.vf = vf := hvf
  have hb2stride : b2.stride = strideOf vf := hstr
  have hb2cur : b2.cur = b.cur := rfl
  have hb2curvf : b2.curvf = b.curvf ||| op.channel := rfl
  have hb2ldc : b2.lastdata op.channel =
      some (b.cur + offsetOf vf op.channel) := by
    show (if op.channel = op.channel
      then some (b.cur + offsetOf b.vf op.channel)
      else b.lastdata op.channel) = _
    rw [if_pos rfl, hvf]
  have hb2ldne : ∀ x, x ≠ op.channel → b2.lastdata x = b.lastdata x := by
    intro x hx
    show (if x = op.channel then some (b.cur + offsetOf b.vf op.channel)
      else b.lastdata x) = _
    rw [if_neg hx]
  have hb2verts : b2.verts =
      writeAt b.verts (b.cur + offsetOf vf op.channel) op.data := by
    rw [hb2, hvf]
  clear hb2
  have hnum : numRecords (l ++ [op]) = numRecords l := by
    rw [numRecords_append]
    simp [hnp]
  have hb2len : b2.verts.length = b.verts.length := by
    rw [hb2verts]
    exact length_writeAt hwb'
  refine ⟨b2, by rw [happ]; exact hset, hb2vf, hb2stride,
    by rw [hnum]; exact hn, by rw [hnum, hb2len]; exact hlen,
    by rw [hnum, hb2cur]; exact hcur, ?_⟩
  intro c hmc hpc
  obtain ⟨⟨hdisj, hlinv⟩, hfin⟩ := hchan c hmc hpc
  have hlv := lastVal_append l op c
  constructor
  · -- ChCur for the extended list
    rw [hnum]
    by_cases hcc : op.channel = c
    · subst hcc
      constructor
      · left
        refine ⟨by rw [hb2curvf]; exact lor_and_self hm, op.data,
          by rw [hlv, if_pos rfl], ?_⟩
        rw [hb2cur, hb2verts, hcur]
        exact write_slot_self hm hp hlen hn hdlen
      · unfold LdInv
        rw [hb2ldc]
        refine ⟨numRecords l - 1, op.data, by omega, by rw [hcur],
          by rw [hlv, if_pos rfl], ?_⟩
        rw [hb2verts, hcur]
        exact write_slot_self hm hp hlen hn hdlen
    · have hcc' : c ≠ op.channel := fun h => hcc h.symm
      constructor
      · rcases hdisj with ⟨ha, dd, hdd, hexd⟩ | ⟨ha, hz⟩
        · left
          refine ⟨?_, dd, by rw [hlv, if_neg hcc]; exact hdd, ?_⟩
          · rw [hb2curvf, lor_and_other hmc hm hcc]
            exact ha
          · rw [hb2cur, hb2verts, hcur,
              write_slot_pres hm hp hlen hn hdlen c hmc hpc
                (numRecords l - 1) (by omega) (Or.inr hcc'), ← hcur]
            exact hexd
        · right
          refine ⟨?_, ?_⟩
          · rw [hb2curvf, lor_and_other hmc hm hcc]
            exact ha
          · rw [hb2cur, hb2verts, hcur,
              write_slot_pres hm hp hlen hn hdlen c hmc hpc
                (numRecords l - 1) (by omega) (Or.inr hcc'), ← hcur]
            exact hz
      · unfold LdInv at hlinv ⊢
        rw [hb2ldne c hcc']
        rcases hld2 : b.lastdata c with _ | o1
        · rw [hld2] at hlinv
          rw [hlv, if_neg hcc]
          exact hlinv
        · rw [hld2] at hlinv
          obtain ⟨r1, d1, hr1, ho1, hL1, hex1⟩ := hlinv
          refine ⟨r1, d1, hr1, ho1, by rw [hlv, if_neg hcc]; exact hL1, ?_⟩
          rw [hb2verts, ho1, hcur,
            write_slot_pres hm hp hlen hn hdlen c hmc hpc r1 hr1
              (Or.inr hcc'), ← ho1]
          exact hex1
  · -- finalized records unchanged
    intro r hrn
    rw [hnum] at hrn
    rw [takeRecs_append_lt op (by omega)]
    rw [hb2verts, hcur,
      write_slot_pres hm hp hlen hn hdlen c hmc hpc r (by omega)
        (Or.inl (by omega))]
    exact hfin r hrn

/-- One `Position` call (finalize, new record, set position) preserves
the invariant, extending the operation list. -/
theorem position_step {vf : Nat} {l : List VOp} {b : VertexBuilder}
    {x y z : B4} (hinv : RecInv vf l b) (hp : vf &&& vertexPosition ≠ 0) :
    ∃ b3, VOp.apply b (VOp.position x y z) = .ok b3 ∧
      RecInv vf (l ++ [VOp.position x y z]) b3 := by
  obtain ⟨hvf, hstr, hn, hlen, hcur, hchan⟩ := hinv
  have hm1 : vertexPosition ∈ channelBits := by decide
  have HL : ∀ c d, lastVal l c = some d → d.length = attribBytes c :=
    fun c d h => lastVal_length h
  obtain ⟨bf, hfe, q1, q2, q3, q4, q5, q6, q7, q8⟩ :=
    fillFrom_spec vf (numRecords l) (lastVal l) HL channelBits b
      (List.Sublist.refl _) hvf hstr hcur hn hlen
      (fun c hmc hpc => (hchan c hmc hpc).1)
  have hspos : 0 < strideOf vf := strideOf_pos hm1 hp
  have hns := pred_mul_succ (n := numRecords l) (s := strideOf vf) hn
  have hfne : bf.verts.length ≠ 0 := by
    rw [q4, hlen]
    have := Nat.mul_pos (show 0 < numRecords l by omega) hspos
    omega
  set b2 : VertexBuilder := bf.next with hb2def
  have hb2vf : b2.vf = vf := q1
  have hb2stride : b2.stride = strideOf vf := q2
  have hb2cur : b2.cur = numRecords l * strideOf vf := by
    show (if bf.verts.length ≠ 0 then bf.cur + bf.stride else bf.cur) = _
    rw [if_pos hfne, q3, hcur, q2]
    exact hns
  have hb2curvf : b2.curvf = 0 := rfl
  have hb2ld : ∀ c1, b2.lastdata c1 = bf.lastdata c1 := fun _ => rfl
  have hb2verts : b2.verts = bf.verts ++ List.replicate (strideOf vf) 0 := by
    show bf.verts ++ List.replicate bf.stride 0 = _
    rw [q2]
  have hbfl : bf.verts.length = numRecords l * strideOf vf := by
    rw [q4, hlen]
  have hb2len : b2.verts.length = (numRecords l + 1) * strideOf vf := by
    rw [hb2verts, List.length_append, List.length_replicate, hbfl]
    ring
  have hdist : (numRecords l + 1) * strideOf vf =
      numRecords l * strideOf vf + strideOf vf := by ring
  have hpos_dlen : (x.bytes ++ y.bytes ++ z.bytes).length =
      attribBytes vertexPosition := rfl
  have hoffsz := offsetOf_add_le hm1 hp
  have hwb' : b2.cur + offsetOf vf vertexPosition +
      (x.bytes ++ y.bytes ++ z.bytes).length ≤ b2.verts.length := by
    rw [hb2cur, hb2len, hpos_dlen]
    omega
  have hwb : b2.cur + offsetOf b2.vf vertexPosition +
      (x.bytes ++ y.bytes ++ z.bytes).length ≤ b2.verts.length := by
    rw [hb2vf]
    exact hwb'
  have hset := set_ok (b := b2) (x.bytes ++ y.bytes ++ z.bytes)
    (by rw [hb2vf]; exact hp) hwb
  set b3 : VertexBuilder :=
    { b2 with
      curvf := b2.curvf ||| vertexPosition,
      lastdata := fun c =>
        if c = vertexPosition
        then some (b2.cur + offsetOf b2.vf vertexPosition)
        else b2.lastdata c,
      verts := writeAt b2.verts (b2.cur + offsetOf b2.vf vertexPosition)
        (x.bytes ++ y.bytes ++ z.bytes) } with hb3
  have hb3vf : b3.vf = vf := hb2vf
  have hb3stride : b3.stride = strideOf vf := hb2stride
  have hb3cur : b3.cur = numRecords l * strideOf vf := hb2cur
  have hb3curvf1 : b3.curvf &&& vertexPosition ≠ 0 := by
    show (b2.curvf ||| vertexPosition) &&& vertexPosition ≠ 0
    exact lor_and_self hm1
  have hb3curvf0 : ∀ c, c ∈ channelBits → c ≠ vertexPosition →
      b3.curvf &&& c = 0 := by
    intro c hmc hne
    show (b2.curvf ||| vertexPosition) &&& c = 0
    rw [lor_and_other hmc hm1 (fun h => hne h.symm), hb2curvf,
      Nat.zero_and]
  have hb3ldp : b3.lastdata vertexPosition =
      some (b2.cur + offsetOf vf vertexPosition) := by
    show (if vertexPosition = vertexPosition
      then some (b2.cur + offsetOf b2.vf vertexPosition)
      else b2.lastdata vertexPosition) = _
    rw [if_pos rfl, hb2vf]
  have hb3ldne : ∀ c, c ≠ vertexPosition → b3.lastdata c = bf.lastdata c := by
    intro c hne
    show (if c = vertexPosition
      then some (b2.cur + offsetOf b2.vf vertexPosition)
      else b2.lastdata c) = _
    rw [if_neg hne, hb2ld]
  have hb3verts : b3.verts =
      writeAt b2.verts (b2.cur + offsetOf vf vertexPosition)
        (x.bytes ++ y.bytes ++ z.bytes) := by
    rw [hb3, hb2vf]
  clear hb3
  have happ : VOp.apply b (VOp.position x y z) = .ok b3 := by
    show b.position x y z = .ok b3
    unfold VertexBuilder.position
    have hfv : b.fillVertex = .ok bf := hfe
    rw [hfv]
    exact hset
  have hnum : numRecords (l ++ [VOp.position x y z]) = numRecords l + 1 := by
    rw [numRecords_append]
    simp [VOp.isPos]
  have hb3len : b3.verts.length = (numRecords l + 1) * strideOf vf := by
    rw [hb3verts, length_writeAt hwb']
    exact hb2len
  rw [hb2cur] at hwb'
  refine ⟨b3, happ, hb3vf, hb3stride, by rw [hnum]; omega,
    by rw [hnum]; exact hb3len, ?_, ?_⟩
  · rw [hnum, hb3cur]
    have h1 : numRecords l + 1 - 1 = numRecords l := rfl
    rw [h1]
  · intro c hmc hpc
    obtain ⟨hdoneF, hlinvF⟩ := q6 c hmc hpc
    have hlv := lastVal_append l (VOp.position x y z) c
    have hofc := offsetOf_add_le hmc hpc
    constructor
    · -- ChCur for the extended list
      rw [hnum]
      have hcpos : (VOp.position x y z).channel = vertexPosition := rfl
      by_cases hcc : c = vertexPosition
      · subst hcc
        constructor
        · left
          refine ⟨hb3curvf1, x.bytes ++ y.bytes ++ z.bytes, ?_, ?_⟩
          · rw [hlv, if_pos hcpos]
            rfl
          · rw [hb3cur, hb3verts, hb2cur]
            have h5 := extract_writeAt_self (l := b2.verts)
              (d := x.bytes ++ y.bytes ++ z.bytes)
              (o := numRecords l * strideOf vf + offsetOf vf vertexPosition)
              hwb'
            rw [hpos_dlen] at h5
            exact h5
        · unfold LdInv
          rw [hb3ldp]
          refine ⟨numRecords l, x.bytes ++ y.bytes ++ z.bytes, by omega,
            by rw [hb2cur], by rw [hlv, if_pos hcpos]; rfl, ?_⟩
          rw [hb3verts, hb2cur]
          have h5 := extract_writeAt_self (l := b2.verts)
            (d := x.bytes ++ y.bytes ++ z.bytes)
            (o := numRecords l * strideOf vf + offsetOf vf vertexPosition)
            hwb'
          rw [hpos_dlen] at h5
          exact h5
      · have hcc' : VOp.channel (VOp.position x y z) = vertexPosition := rfl
        have hnec : ¬(VOp.channel (VOp.position x y z) = c) := by
          rw [hcc']
          exact fun h => hcc h.symm
        constructor
        · right
          refine ⟨hb3curvf0 c hmc hcc, ?_⟩
          rw [hb3cur, hb3verts, hb2cur]
          have hext1 : extract
              (writeAt b2.verts
                (numRecords l * strideOf vf + offsetOf vf vertexPosition)
                (x.bytes ++ y.bytes ++ z.bytes))
              (numRecords l * strideOf vf + offsetOf vf c)
              (attribBytes c) =
              extract b2.verts
                (numRecords l * strideOf vf + offsetOf vf c)
                (attribBytes c) := by
            refine extract_writeAt_disj ?_ hwb'
            rw [hpos_dlen]
            rcases offsetOf_disjoint hmc hm1 hpc hp hcc with h | h
            · left
              omega
            · right
              omega
          rw [hext1, hb2verts]
          have h6 := @extract_append_right bf.verts
            (List.replicate (strideOf vf) 0) (offsetOf vf c)
            (attribBytes c)
          rw [hbfl] at h6
          rw [h6]
          exact extract_replicate_zero hofc
        · unfold LdInv at hlinvF ⊢
          rw [hb3ldne c hcc]
          rcases hld2 : bf.lastdata c with _ | o1
          · rw [hld2] at hlinvF
            rw [hlv, if_neg hnec]
            exact hlinvF
          · rw [hld2] at hlinvF
            obtain ⟨r1, d1, hr1, ho1, hL1, hex1⟩ := hlinvF
            refine ⟨r1, d1, by omega, ho1,
              by rw [hlv, if_neg hnec]; exact hL1, ?_⟩
            have hslotb : o1 + attribBytes c ≤ bf.verts.length := by
              rw [ho1, hbfl]
              have h4 : (r1 + 1) * strideOf vf ≤
                  numRecords l * strideOf vf :=
                Nat.mul_le_mul_right _ (by omega)
              have h3 : (r1 + 1) * strideOf vf =
                  r1 * strideOf vf + strideOf vf := by ring
              omega
            rw [hb3verts, hb2cur]
            have hext1 : extract
                (writeAt b2.verts
                  (numRecords l * strideOf vf + offsetOf vf vertexPosition)
                  (x.bytes ++ y.bytes ++ z.bytes)) o1 (attribBytes c) =
                extract b2.verts o1 (attribBytes c) := by
              refine extract_writeAt_disj ?_ hwb'
              rw [hpos_dlen, ho1]
              left
              have h4 : (r1 + 1) * strideOf vf ≤
                  numRecords l * strideOf vf :=
                Nat.mul_le_mul_right _ (by omega)
              have h3 : (r1 + 1) * strideOf vf =
                  r1 * strideOf vf + strideOf vf := by ring
              omega
            rw [hext1, hb2verts, extract_append_left hslotb]
            exact hex1
    · -- finalized records of the extended list
      intro r hrn
      rw [hnum] at hrn
      have hofbound : r * strideOf vf + offsetOf vf c + attribBytes c ≤
          numRecords l * strideOf vf := by
        have h4 : (r + 1) * strideOf vf ≤ numRecords l * strideOf vf :=
          Nat.mul_le_mul_right _ (by omega)
        have h3 : (r + 1) * strideOf vf =
            r * strideOf vf + strideOf vf := by ring
        omega
      have hext1 : extract b3.verts
          (r * strideOf vf + offsetOf vf c) (attribBytes c) =
          extract bf.verts (r * strideOf vf + offsetOf vf c)
            (attribBytes c) := by
        rw [hb3verts, hb2cur]
        have h7 : extract
            (writeAt b2.verts
              (numRecords l * strideOf vf + offsetOf vf vertexPosition)
              (x.bytes ++ y.bytes ++ z.bytes))
            (r * strideOf vf + offsetOf vf c) (attribBytes c) =
            extract b2.verts (r * strideOf vf + offsetOf vf c)
              (attribBytes c) := by
          refine extract_writeAt_disj ?_ hwb'
          rw [hpos_dlen]
          left
          omega
        rw [h7, hb2verts, extract_append_left (by rw [hbfl]; exact hofbound)]
      rw [hext1]
      by_cases hrr : r + 1 < numRecords l
      · rw [takeRecs_append_lt _ hrr]
        have hbel := slot_below_cur hmc hpc hrr
        rw [q5 _ _ (by rw [hcur]; exact hbel)]
        exact (hchan c hmc hpc).2 r hrr
      · have hreq : r + 1 = numRecords l := by omega
        rw [hreq, takeRecs_append_pos (show (VOp.position x y z).isPos = true from rfl) rfl]
        unfold ChDone at hdoneF
        have hrn1 : numRecords l - 1 = r := by omega
        rw [q3, hcur, hrn1] at hdoneF
        unfold chanVal
        exact hdoneF

/-- The first `Position` call on a fresh builder establishes the
invariant. -/
theorem position_base {vf : Nat} {x y z : B4}
    (hp : vf &&& vertexPosition ≠ 0) :
    ∃ b3, VOp.apply (newVertexBuilder vf) (VOp.position x y z) = .ok b3 ∧
      RecInv vf [VOp.position x y z] b3 := by
  have hm1 : vertexPosition ∈ channelBits := by decide
  have hoffsz := offsetOf_add_le hm1 hp
  set b2 : VertexBuilder := (newVertexBuilder vf).next with hb2def
  have hb2vf : b2.vf = vf := rfl
  have hb2stride : b2.stride = strideOf vf := rfl
  have hb2cur : b2.cur = 0 := rfl
  have hb2curvf : b2.curvf = 0 := rfl
  have hb2ld : ∀ c, b2.lastdata c = none := fun _ => rfl
  have hb2verts : b2.verts = List.replicate (strideOf vf) 0 := by
    rw [hb2def]
    show (newVertexBuilder vf).verts ++
      List.replicate (newVertexBuilder vf).stride 0 = _
    rw [show (newVertexBuilder vf).verts = [] from rfl,
      show (newVertexBuilder vf).stride = strideOf vf from rfl,
      List.nil_append]
  have hb2len : b2.verts.length = strideOf vf := by
    rw [hb2verts, List.length_replicate]
  have hpos_dlen : (x.bytes ++ y.bytes ++ z.bytes).length =
      attribBytes vertexPosition := rfl
  have hwb : b2.cur + offsetOf b2.vf vertexPosition +
      (x.bytes ++ y.bytes ++ z.bytes).length ≤ b2.verts.length := by
    rw [hb2cur, hb2len, hpos_dlen]
    have hof : offsetOf b2.vf vertexPosition = offsetOf vf vertexPosition :=
      rfl
    rw [hof]
    omega
  have hset := set_ok (b := b2) (x.bytes ++ y.bytes ++ z.bytes) hp hwb
  set b3 : VertexBuilder :=
    { b2 with
      curvf := b2.curvf ||| vertexPosition,
      lastdata := fun c =>
        if c = vertexPosition
        then some (b2.cur + offsetOf b2.vf vertexPosition)
        else b2.lastdata c,
      verts := writeAt b2.verts (b2.cur + offsetOf b2.vf vertexPosition)
        (x.bytes ++ y.bytes ++ z.bytes) } with hb3
  have hb3vf : b3.vf = vf := rfl
  have hb3stride : b3.stride = strideOf vf := rfl
  have hb3cur : b3.cur = 0 := rfl
  have hb3curvf1 : b3.curvf &&& vertexPosition ≠ 0 := by
    show (b2.curvf ||| vertexPosition) &&& vertexPosition ≠ 0
    exact lor_and_self hm1
  have hb3curvf0 : ∀ c, c ∈ channelBits → c ≠ vertexPosition →
      b3.curvf &&& c = 0 := by
    intro c hmc hne
    show (b2.curvf ||| vertexPosition) &&& c = 0
    rw [lor_and_other hmc hm1 (fun h => hne h.symm), hb2curvf,
      Nat.zero_and]
  have hb3ldp : b3.lastdata vertexPosition =
      some (offsetOf vf vertexPosition) := by
    show (if vertexPosition = vertexPosition
      then some (b2.cur + offsetOf b2.vf vertexPosition)
      else b2.lastdata vertexPosition) = _
    rw [if_pos rfl, hb2cur]
    show some (0 + offsetOf vf vertexPosition) = _
    rw [Nat.zero_add]
  have hb3ldne : ∀ c, c ≠ vertexPosition → b3.lastdata c = none := by
    intro c hne
    show (if c = vertexPosition
      then some (b2.cur + offsetOf b2.vf vertexPosition)
      else b2.lastdata c) = _
    rw [if_neg hne, hb2ld]
  have hb3verts : b3.verts =
      writeAt (List.replicate (strideOf vf) 0)
        (offsetOf vf vertexPosition) (x.bytes ++ y.bytes ++ z.bytes) := by
    rw [hb3, hb2verts, hb2cur]
    show writeAt _ (0 + offsetOf vf vertexPosition) _ = _
    rw [Nat.zero_add]
  clear hb3
  have hwb0 : offsetOf vf vertexPosition +
      (x.bytes ++ y.bytes ++ z.bytes).length ≤ strideOf vf := by
    rw [hpos_dlen]
    omega
  have hb3len : b3.verts.length = strideOf vf := by
    rw [hb3verts, length_writeAt (by rw [List.length_replicate]; exact hwb0),
      List.length_replicate]
  have happ : VOp.apply (newVertexBuilder vf) (VOp.position x y z) =
      .ok b3 := by
    show (newVertexBuilder vf).position x y z = .ok b3
    unfold VertexBuilder.position
    have hfv : (newVertexBuilder vf).fillVertex = .ok (newVertexBuilder vf) :=
      fillFrom_none channelBits _ (fun _ _ => rfl)
    rw [hfv]
    exact hset
  have hnum : numRecords [VOp.position x y z] = 1 := rfl
  have hlv1 : ∀ c, lastVal [VOp.position x y z] c =
      if (VOp.position x y z).channel = c
      then some ((VOp.position x y z).data) else none := fun _ => rfl
  have hcpos : (VOp.position x y z).channel = vertexPosition := rfl
  refine ⟨b3, happ, hb3vf, hb3stride, by rw [hnum],
    by rw [hnum, hb3len, Nat.one_mul], by rw [hnum, hb3cur]; omega, ?_⟩
  intro c hmc hpc
  have hofc := offsetOf_add_le hmc hpc
  constructor
  · rw [hnum]
    by_cases hcc : c = vertexPosition
    · subst hcc
      constructor
      · left
        refine ⟨hb3curvf1, x.bytes ++ y.bytes ++ z.bytes, ?_, ?_⟩
        · rw [hlv1, if_pos hcpos]
          rfl
        · rw [hb3cur, Nat.zero_add, hb3verts]
          have h5 := extract_writeAt_self
            (l := List.replicate (strideOf vf) 0)
            (d := x.bytes ++ y.bytes ++ z.bytes)
            (o := offsetOf vf vertexPosition)
            (by rw [List.length_replicate]; exact hwb0)
          rw [hpos_dlen] at h5
          exact h5
      · unfold LdInv
        rw [hb3ldp]
        refine ⟨0, x.bytes ++ y.bytes ++ z.bytes, by omega,
          by rw [Nat.zero_mul, Nat.zero_add],
          by rw [hlv1, if_pos hcpos]; rfl, ?_⟩
        rw [hb3verts]
        have h5 := extract_writeAt_self
          (l := List.replicate (strideOf vf) 0)
          (d := x.bytes ++ y.bytes ++ z.bytes)
          (o := offsetOf vf vertexPosition)
          (by rw [List.length_replicate]; exact hwb0)
        rw [hpos_dlen] at h5
        exact h5
    · have hnec : ¬((VOp.position x y z).channel = c) := by
        rw [hcpos]
        exact fun h => hcc h.symm
      constructor
      · right
        refine ⟨hb3curvf0 c hmc hcc, ?_⟩
        rw [hb3cur, Nat.zero_add, hb3verts]
        have hext1 : extract
            (writeAt (List.replicate (strideOf vf) 0)
              (offsetOf vf vertexPosition) (x.bytes ++ y.bytes ++ z.bytes))
            (offsetOf vf c) (attribBytes c) =
            extract (List.replicate (strideOf vf) 0)
              (offsetOf vf c) (attribBytes c) := by
          refine extract_writeAt_disj ?_
            (by rw [List.length_replicate]; exact hwb0)
          rw [hpos_dlen]
          rcases offsetOf_disjoint hmc hm1 hpc hp hcc with h | h
          · left
            omega
          · right
            omega
        rw [hext1]
        exact extract_replicate_zero hofc
      · unfold LdInv
        rw [hb3ldne c hcc, hlv1, if_neg hnec]
  · intro r hr
    rw [hnum] at hr
    omega

/-- Main refinement induction: a valid non-empty operation sequence on
a fresh builder runs without error and establishes `RecInv`. -/
theorem runOps_inv (vf : Nat) : ∀ ops : List VOp,
    (∀ op ∈ ops, vf &&& op.channel ≠ 0) → startsWithPos ops → ops ≠ [] →
    ∃ b, runOps ops (newVertexBuilder vf) = .ok b ∧ RecInv vf ops b := by
  intro ops
  induction ops using List.reverseRecOn with
  | nil =>
    intro _ _ hne
    exact absurd rfl hne
  | append_singleton l op ih =>
    intro hv hs hne
    by_cases hl : l = []
    · subst hl
      cases op with
      | position xx yy zz =>
        obtain ⟨b3, happ, hinv⟩ :=
          position_base (x := xx) (y := yy) (z := zz)
            (hv _ (List.mem_cons_self _ _))
        refine ⟨b3, ?_, hinv⟩
        show (VOp.apply (newVertexBuilder vf)
          (VOp.position xx yy zz)).bind (runOps []) = .ok b3
        rw [happ]
        rfl
      | color r g bl a => simp [startsWithPos, VOp.isPos] at hs
      | normal xx yy zz => simp [startsWithPos, VOp.isPos] at hs
      | texcoord u v => simp [startsWithPos, VOp.isPos] at hs
    · have hvl : ∀ o ∈ l, vf &&& o.channel ≠ 0 := fun o ho =>
        hv o (List.mem_append_left _ ho)
      have hsl : startsWithPos l := by
        rcases l with _ | ⟨o0, l0⟩
        · exact trivial
        · exact hs
      obtain ⟨b, hrun, hinv⟩ := ih hvl hsl hl
      have hvo : vf &&& op.channel ≠ 0 :=
        hv op (List.mem_append_right _ (List.mem_cons_self _ _))
      have hnext : ∃ b3, VOp.apply b op = .ok b3 ∧
          RecInv vf (l ++ [op]) b3 := by
        cases op with
        | position xx yy zz => exact position_step hinv hvo
        | color r g bl a => exact setter_step hinv rfl hvo
        | normal xx yy zz => exact setter_step hinv rfl hvo
        | texcoord u v => exact setter_step hinv rfl hvo
      obtain ⟨b3, happ, hinv3⟩ := hnext
      refine ⟨b3, ?_, hinv3⟩
      rw [runOps_append, hrun]
      show (VOp.apply b op).bind (runOps []) = .ok b3
      rw [happ]
      rfl

/-- C1 core: running a valid operation sequence and copying out
produces records where every present channel holds the bytes most
recently written for it up to the end of that record's segment, or the
zero bytes it was initialized with if never written. -/
theorem buildBytes_spec (vf : Nat) (ops : List VOp)
    (hv : ∀ op ∈ ops, vf &&& op.channel ≠ 0) (hs : startsWithPos ops) :
    ∃ bytes, buildBytes vf ops = .ok bytes ∧
      bytes.length = numRecords ops * strideOf vf ∧
      ∀ r, r < numRecords ops → ∀ c ∈ channelBits, vf &&& c ≠ 0 →
        extract bytes (r * strideOf vf + offsetOf vf c) (attribBytes c) =
          chanVal (takeRecs (r + 1) ops) c := by
  by_cases hne : ops = []
  · subst hne
    have h0 : buildBytes vf [] = .ok [] := by
      unfold buildBytes
      show ((newVertexBuilder vf).fillVertex).map
        (fun b1 => b1.verts) = .ok []
      have hfv : (newVertexBuilder vf).fillVertex =
          .ok (newVertexBuilder vf) :=
        fillFrom_none channelBits (newVertexBuilder vf) (fun _ _ => rfl)
      rw [hfv]
      rfl
    refine ⟨[], h0, by simp [numRecords], ?_⟩
    intro r hr
    have : numRecords ([] : List VOp) = 0 := rfl
    omega
  · obtain ⟨b, hrun, hinv⟩ := runOps_inv vf ops hv hs hne
    obtain ⟨hvf, hstr, hn, hlen, hcur, hchan⟩ := hinv
    obtain ⟨bf, hfe, q1, q2, q3, q4, q5, q6, q7, q8⟩ :=
      fillFrom_spec vf (numRecords ops) (lastVal ops)
        (fun c d h => lastVal_length h) channelBits b
        (List.Sublist.refl _) hvf hstr hcur hn hlen
        (fun c hmc hpc => (hchan c hmc hpc).1)
    have hbb : buildBytes vf ops = .ok bf.verts := by
      unfold buildBytes
      rw [hrun]
      show (b.fillVertex).map (fun b1 => b1.verts) = .ok bf.verts
      have hfv : b.fillVertex = .ok bf := hfe
      rw [hfv]
      rfl
    refine ⟨bf.verts, hbb, by rw [q4, hlen], ?_⟩
    intro r hr c hmc hpc
    by_cases hrr : r + 1 < numRecords ops
    · have hbel := slot_below_cur hmc hpc hrr
      rw [q5 _ _ (by rw [hcur]; exact hbel)]
      exact (hchan c hmc hpc).2 r hrr
    · have hreq : r = numRecords ops - 1 := by omega
      obtain ⟨hdoneF, -⟩ := q6 c hmc hpc
      unfold ChDone at hdoneF
      rw [q3, hcur] at hdoneF
      rw [hreq]
      have htk : takeRecs (numRecords ops - 1 + 1) ops = ops := by
        have h1 : numRecords ops - 1 + 1 = numRecords ops := by omega
        rw [h1]
        exact takeRecs_all (Nat.le_refl _)
      rw [htk]
      unfold chanVal
      exact hdoneF

/-! ### Format and stride are never mutated, not even by failing
calls. -/
theorem set_run_preserve (b : VertexBuilder) (v : Nat) (d : List Nat) :
    (runStateV (b.set v d)).vf = b.vf ∧
      (runStateV (b.set v d)).stride = b.stride := by
  by_cases h1 : b.vf &&& v = 0
  · simp [VertexBuilder.set, runStateV, h1]
  · by_cases h2 : b.cur + offsetOf b.vf v + d.length ≤ b.verts.length
    · simp [VertexBuilder.set, runStateV, h1, h2]
    · simp [VertexBuilder.set, runStateV, h1, h2]

theorem fillFrom_run_preserve : ∀ (cs : List Nat) (b : VertexBuilder),
    (runStateV (VertexBuilder.fillFrom cs b)).vf = b.vf ∧
      (runStateV (VertexBuilder.fillFrom cs b)).stride = b.stride := by
  intro cs
  induction cs with
  | nil => exact fun b => ⟨rfl, rfl⟩
  | cons c rest ih =>
    intro b
    rcases hld : b.lastdata c with _ | o
    · have hstep : VertexBuilder.fillFrom (c :: rest) b =
          VertexBuilder.fillFrom rest b := by
        simp only [VertexBuilder.fillFrom, hld]
      rw [hstep]
      exact ih b
    · by_cases hg : b.vf &&& c ≠ 0 ∧ b.curvf &&& c = 0
      · by_cases hob : o + attribBytes c ≤ b.verts.length
        · rcases hset : b.set c (extract b.verts o (attribBytes c))
            with e | b1
          · have hstep : VertexBuilder.fillFrom (c :: rest) b = .error e := by
              simp only [VertexBuilder.fillFrom, hld]
              rw [if_pos hg, if_pos hob, hset]
            rw [hstep]
            have h5 := set_run_preserve b c (extract b.verts o (attribBytes c))
            rw [hset] at h5
            exact h5
          · have hstep : VertexBuilder.fillFrom (c :: rest) b =
                VertexBuilder.fillFrom rest b1 := by
              simp only [VertexBuilder.fillFrom, hld]
              rw [if_pos hg, if_pos hob, hset]
            rw [hstep]
            have h5 := set_run_preserve b c (extract b.verts o (attribBytes c))
            rw [hset] at h5
            have h6 := ih b1
            exact ⟨h6.1.trans h5.1, h6.2.trans h5.2⟩
        · have hstep : VertexBuilder.fillFrom (c :: rest) b =
              .error (.bounds, b) := by
            simp only [VertexBuilder.fillFrom, hld]
            rw [if_pos hg, if_neg hob]
          rw [hstep]
          exact ⟨rfl, rfl⟩
      · have hstep : VertexBuilder.fillFrom (c :: rest) b =
            VertexBuilder.fillFrom rest b := by
          simp only [VertexBuilder.fillFrom, hld]
          rw [if_neg hg]
        rw [hstep]
        exact ih b

theorem vop_run_preserve (op : VOp) (b : VertexBuilder) :
    (runStateV (VOp.apply b op)).vf = b.vf ∧
      (runStateV (VOp.apply b op)).stride = b.stride := by
  cases op with
  | position xx yy zz =>
    show (runStateV (b.position xx yy zz)).vf = b.vf ∧
      (runStateV (b.position xx yy zz)).stride = b.stride
    unfold VertexBuilder.position
    rcases hf : b.fillVertex with e | bf
    · have h5 := fillFrom_run_preserve channelBits b
      have hf2 : VertexBuilder.fillFrom channelBits b = .error e := hf
      rw [hf2] at h5
      exact h5
    · have h5 := fillFrom_run_preserve channelBits b
      have hf2 : VertexBuilder.fillFrom channelBits b = .ok bf := hf
      rw [hf2] at h5
      show (runStateV ((bf.next).set vertexPosition
        (xx.bytes ++ yy.bytes ++ zz.bytes))).vf = b.vf ∧
        (runStateV ((bf.next).set vertexPosition
          (xx.bytes ++ yy.bytes ++ zz.bytes))).stride = b.stride
      have h6 := set_run_preserve bf.next vertexPosition
        (xx.bytes ++ yy.bytes ++ zz.bytes)
      have h7 : (bf.next).vf = bf.vf := rfl
      have h8 : (bf.next).stride = bf.stride := rfl
      exact ⟨h6.1.trans (h7.trans h5.1), h6.2.trans (h8.trans h5.2)⟩
  | color r g bl a => exact set_run_preserve b vertexColor [r, g, bl, a]
  | normal xx yy zz =>
    exact set_run_preserve b vertexNormal
      (xx.bytes ++ yy.bytes ++ zz.bytes)
  | texcoord u v =>
    exact set_run_preserve b vertexTexcoord (u.bytes ++ v.bytes)

theorem bop_run_preserve (op : BOp) (b : Builder) :
    (endState (BOp.apply b op)).vb.vf = b.vb.vf ∧
      (endState (BOp.apply b op)).vb.stride = b.vb.stride := by
  cases op with
  | vertex vop =>
    have h5 := vop_run_preserve vop b.vb
    have hred : endState (BOp.apply b (BOp.vertex vop)) =
        { vb := runStateV (VOp.apply b.vb vop), ib := b.ib } := by
      show endState (match VOp.apply b.vb vop with
        | .ok v => .ok { b with vb := v }
        | .error (e, v) => .error (e, { b with vb := v })) = _
      rcases VOp.apply b.vb vop with ⟨e, v⟩ | v
      · rfl
      · rfl
    rw [hred]
    exact h5
  | indices l => exact ⟨rfl, rfl⟩
  | setIndices l => exact ⟨rfl, rfl⟩

theorem runBOps_preserve : ∀ (ops : List BOp) (b : Builder),
    (endState (runBOps ops b)).vb.vf = b.vb.vf ∧
      (endState (runBOps ops b)).vb.stride = b.vb.stride := by
  intro ops
  induction ops with
  | nil => exact fun b => ⟨rfl, rfl⟩
  | cons op rest ih =>
    intro b
    have hr : runBOps (op :: rest) b = (BOp.apply b op).bind (runBOps rest) :=
      rfl
    rw [hr]
    rcases ha : BOp.apply b op with e | b1
    · have h5 := bop_run_preserve op b
      rw [ha] at h5
      exact h5
    · have h5 := bop_run_preserve op b
      rw [ha] at h5
      have h6 := ih b1
      exact ⟨h6.1.trans h5.1, h6.2.trans h5.2⟩

/-- Clearing any builder whose immutable format fields match a fresh
builder's produces exactly the fresh builder state. -/
theorem clear_eq_new {vf : Nat} {b : Builder} (h1 : b.vb.vf = vf)
    (h2 : b.vb.stride = strideOf vf) : b.clear = newBuilder vf := by
  unfold Builder.clear VertexBuilder.clear IndexBuilder.clear newBuilder
    newVertexBuilder newIndexBuilder
  rw [h1, h2]

/-! ### Lemmas about the index builder. -/
theorem le_maxL {l : List Nat} {x : Nat} (h : x ∈ l) : x ≤ maxL l := by
  induction l with
  | nil => simp at h
  | cons y rest ih =>
    rcases List.mem_cons.mp h with rfl | h
    · simp [maxL]
    · have := ih h
      simp only [maxL]
      omega

theorem maxL_mem {l : List Nat} (h : l ≠ []) : maxL l ∈ l := by
  induction l with
  | nil => exact absurd rfl h
  | cons y rest ih =>
    match rest with
    | [] => simp [maxL]
    | z :: rest1 =>
      have hmem := ih (by simp)
      have hdef : maxL (y :: z :: rest1) = max y (maxL (z :: rest1)) := rfl
      rw [hdef]
      rcases Nat.le_total (maxL (z :: rest1)) y with h1 | h1
      · rw [Nat.max_eq_left h1]
        exact List.mem_cons_self _ _
      · rw [Nat.max_eq_right h1]
        exact List.mem_cons_of_mem _ hmem

theorem maxL_append {a b : List Nat} :
    maxL (a ++ b) = max (maxL a) (maxL b) := by
  induction a with
  | nil => simp [maxL]
  | cons x rest ih =>
    have hdef : maxL ((x :: rest) ++ b) = max x (maxL (rest ++ b)) := rfl
    have hdef2 : maxL (x :: rest) = max x (maxL rest) := rfl
    rw [hdef, hdef2, ih]
    omega

theorem maxL_map_add {l : List Nat} (k : Nat) (h : l ≠ []) :
    maxL (l.map (fun r => r + k)) = maxL l + k := by
  induction l with
  | nil => exact absurd rfl h
  | cons x rest ih =>
    match rest with
    | [] => simp [maxL]
    | z :: rest1 =>
      have h1 := ih (by simp)
      have hdef : maxL ((x :: z :: rest1).map (fun r => r + k)) =
          max (x + k) (maxL ((z :: rest1).map (fun r => r + k))) := rfl
      have hdef2 : maxL (x :: z :: rest1) = max x (maxL (z :: rest1)) := rfl
      rw [hdef, h1, hdef2]
      omega

/-- The rebased values the loop writes back: each raw value plus the
base, as uint16. -/
theorem indicesLoop_fst (input : List Nat) (base nn : Nat) :
    (indicesLoop input base nn).1 = input.map (fun r => (r + base) % 65536) := by
  induction input generalizing nn with
  | nil => rfl
  | cons r rest ih => simp [indicesLoop, ih]

/-- Without uint16 wraparound the loop rebases by plain addition and
its `newnext` is the running maximum of the old value and one past
each rebased index. -/
theorem indicesLoop_no_wrap (input : List Nat) (base nn : Nat)
    (hw : ∀ x ∈ input, x + base + 1 < 65536) :
    indicesLoop input base nn =
      (input.map (fun r => r + base),
        if input.isEmpty then nn else max nn (maxL input + base + 1)) := by
  induction input generalizing nn with
  | nil => rfl
  | cons r rest ih =>
    have hr : r + base + 1 < 65536 := hw r (List.mem_cons_self _ _)
    have hmod : (r + base) % 65536 = r + base := Nat.mod_eq_of_lt (by omega)
    have hmod1 : (r + base + 1) % 65536 = r + base + 1 := Nat.mod_eq_of_lt hr
    have hstep : indicesLoop (r :: rest) base nn =
        ((r + base) :: (indicesLoop rest base
            (if nn ≤ r + base then r + base + 1 else nn)).1,
          (indicesLoop rest base
            (if nn ≤ r + base then r + base + 1 else nn)).2) := by
      simp only [indicesLoop, hmod, hmod1]
    rw [hstep, ih _ (fun x hx => hw x (List.mem_cons_of_mem _ hx))]
    rcases rest with _ | ⟨z, rest1⟩ <;>
      by_cases hc : nn ≤ r + base <;>
        simp [hc, maxL, Prod.ext_iff] <;> omega

/-- `IndexBuilder.Indices` without uint16 wraparound: the batch is
rebased by `nextidx`, appended in order, and `nextidx` advances by one
more than the maximum raw index of the call. -/
theorem indices_no_wrap (b : IndexBuilder) (input : List Nat)
    (hne : input ≠ []) (hw : b.nextidx + maxL input + 1 < 65536) :
    (b.indices input).1.idxs = b.idxs ++ input.map (fun r => r + b.nextidx) ∧
    (b.indices input).1.nextidx = b.nextidx + (maxL input + 1) := by
  have hx : ∀ x ∈ input, x + b.nextidx + 1 < 65536 := by
    intro x hxm
    have := le_maxL hxm
    omega
  have h := indicesLoop_no_wrap input b.nextidx b.nextidx hx
  simp only [IndexBuilder.indices, h]
  refine ⟨trivial, ?_⟩
  simp only [List.isEmpty_eq_true]
  rw [if_neg hne]
  omega

theorem specNextBaseStep_le (nb : Nat) (c : List Nat) :
    nb ≤ specNextBaseStep nb c := by
  unfold specNextBaseStep
  split <;> omega

theorem foldl_specNextBaseStep_le (calls : List (List Nat)) (nb : Nat) :
    nb ≤ calls.foldl specNextBaseStep nb := by
  induction calls generalizing nb with
  | nil => exact Nat.le_refl _
  | cons c rest ih => exact (specNextBaseStep_le nb c).trans (ih _)

/-- Invariant of a run of rebasing append calls without wraparound:
`nextidx` tracks the spec-level next base, which is zero when nothing
was produced and one plus the maximum stored index otherwise. -/
theorem runIdxCalls_inv (calls : List (List Nat)) (b : IndexBuilder)
    (hb : (b.idxs = [] ∧ b.nextidx = 0) ∨
          (b.idxs ≠ [] ∧ b.nextidx = maxL b.idxs + 1))
    (hw : calls.foldl specNextBaseStep b.nextidx < 65536) :
    ((runIdxCalls calls b).idxs = [] ∧ (runIdxCalls calls b).nextidx = 0) ∨
      ((runIdxCalls calls b).idxs ≠ [] ∧
        (runIdxCalls calls b).nextidx = maxL (runIdxCalls calls b).idxs + 1) := by
  induction calls generalizing b with
  | nil => exact hb
  | cons c rest ih =>
    by_cases hc : c = []
    · subst hc
      have hstep : (b.indices []).1 = { idxs := b.idxs ++ [], nextidx := b.nextidx } := rfl
      simp only [runIdxCalls, hstep]
      refine ih _ ?_ ?_
      · simpa using hb
      · simpa [specNextBaseStep] using hw
    · have hwc : b.nextidx + maxL c + 1 < 65536 := by
        have h1 : (c :: rest).foldl specNextBaseStep b.nextidx =
            rest.foldl specNextBaseStep (specNextBaseStep b.nextidx c) := rfl
        have h2 := foldl_specNextBaseStep_le rest (specNextBaseStep b.nextidx c)
        rw [h1] at hw
        have h3 : specNextBaseStep b.nextidx c = b.nextidx + maxL c + 1 := by
          unfold specNextBaseStep
          rw [if_neg (by simpa using hc)]
        omega
      obtain ⟨hidxs, hnext⟩ := indices_no_wrap b c hc hwc
      simp only [runIdxCalls]
      refine ih _ ?_ ?_
      · right
        constructor
        · rw [hidxs]
          simp [hc]
        · rw [hidxs, hnext, maxL_append, maxL_map_add _ hc]
          rcases hb with ⟨h1, h2⟩ | ⟨h1, h2⟩
          · rw [h1]
            simp only [maxL]
            omega
          · rw [h2]
            omega
      · have h3 : specNextBaseStep b.nextidx c = b.nextidx + maxL c + 1 := by
          unfold specNextBaseStep
          rw [if_neg (by simpa using hc)]
        have h4 : (c :: rest).foldl specNextBaseStep b.nextidx =
            rest.foldl specNextBaseStep (specNextBaseStep b.nextidx c) := rfl
        rw [h4, h3] at hw
        rw [hnext]
        have : b.nextidx + (maxL c + 1) = b.nextidx + maxL c + 1 := by omega
        rw [this]
        exact hw

/-- Error-path characterization of `VertexBuilder.set`: a channel that
is in the format but whose write range is outside the buffer panics
with the slice-bounds error, after `curvf` and `lastdata` were already
updated on the receiver. -/
theorem set_err {b : VertexBuilder} {c : Nat} (d : List Nat)
    (hvf : ¬b.vf &&& c = 0)
    (hb : ¬(b.cur + offsetOf b.vf c + d.length ≤ b.verts.length)) :
    b.set c d = .error (.bounds,
      { b with
        curvf := b.curvf ||| c,
        lastdata := fun x =>
          if x = c then some (b.cur + offsetOf b.vf c)
          else b.lastdata x }) := by
  unfold VertexBuilder.set
  rw [if_neg hvf]
  rw [if_neg hb]

/-! ### The claim theorems. -/
/-- C1 (confirmed).  Carry-forward on finalization: for every format
and every sequence of vertex operations whose channels are all in the
format and which starts with a position call, the copy-out succeeds,
the buffer holds one stride-sized record per position call, and every
record holds, in the byte range of each channel of the format, the
bytes most recently written for that channel at or before the end of
that record — the zero bytes the record was initialized with when the
channel was never written. -/
theorem c1_carry_forward (vf : Nat) (ops : List VOp)
    (hv : ∀ op ∈ ops, vf &&& op.channel ≠ 0) (hs : startsWithPos ops) :
    ∃ bytes, buildBytes vf ops = .ok bytes ∧
      bytes.length = numRecords ops * strideOf vf ∧
      ∀ r, r < numRecords ops → ∀ c ∈ channelBits, vf &&& c ≠ 0 →
        extract bytes (r * strideOf vf + offsetOf vf c) (attribBytes c) =
          chanVal (takeRecs (r + 1) ops) c :=
  buildBytes_spec vf ops hv hs

/-- Witness for C1 at the example of the claim: format Position|Color,
vertex 0 sets position and color, vertex 1 only position; after
copy-out, the color bytes of vertex 1 (offset 28) equal the color
bytes vertex 0 wrote ([9, 8, 7, 6]). -/
theorem c1_carry_forward_witness :
    (∀ op ∈ c1ops, 3 &&& op.channel ≠ 0) ∧ startsWithPos c1ops ∧
    (∃ bytes, buildBytes 3 c1ops = .ok bytes ∧
      bytes.length = numRecords c1ops * strideOf 3 ∧
      ∀ r, r < numRecords c1ops → ∀ c ∈ channelBits, 3 &&& c ≠ 0 →
        extract bytes (r * strideOf 3 + offsetOf 3 c) (attribBytes c) =
          chanVal (takeRecs (r + 1) c1ops) c) ∧
    c1bytes = [1, 2, 3, 4, 1, 2, 3, 4, 1, 2, 3, 4, 9, 8, 7, 6,
               5, 5, 5, 5, 6, 6, 6, 6, 7, 7, 7, 7, 9, 8, 7, 6] ∧
    extract c1bytes (1 * 16 + 12) 4 = extract c1bytes (0 * 16 + 12) 4 :=
  ⟨by decide, by rfl, c1_carry_forward 3 c1ops (by decide) (by rfl),
   by decide, by decide⟩

/-- C2 (corrected).  Index rebasing without uint16 overflow: when the
old `nextidx` plus one past the maximum raw input fits in a uint16, a
non-empty rebasing append adds `nextidx` to each input index, appends
the rebased values in order, and advances `nextidx` by one more than
the maximum raw input.  (The unconditional form of the claim is false:
the arithmetic is uint16 and wraps, see the counterexample.) -/
theorem c2_rebasing_append (b : IndexBuilder) (input : List Nat)
    (hne : input ≠ []) (hw : b.nextidx + maxL input + 1 < 65536) :
    (b.indices input).1.idxs =
      b.idxs ++ input.map (fun r => r + b.nextidx) ∧
    (b.indices input).1.nextidx = b.nextidx + (maxL input + 1) :=
  indices_no_wrap b input hne hw

/-- Counterexample to the unconditional C2: from `nextidx = 65535`
(after one `Indices(65534)` call), appending the raw index 1 stores
`(1 + 65535) % 65536 = 0`, not `1 + 65535`, and `nextidx` stays 65535
instead of becoming old `nextidx` + (max input + 1) = 65537. -/
theorem c2_rebasing_append_counterexample :
    (newIndexBuilder.indices [65534]).1.nextidx = 65535 ∧
    ((newIndexBuilder.indices [65534]).1.indices [1]).1.idxs =
      [65534, 0] ∧
    ((newIndexBuilder.indices [65534]).1.indices [1]).1.nextidx = 65535 ∧
    (newIndexBuilder.indices [65534]).1.idxs ++
        [1].map (fun r => r + (newIndexBuilder.indices [65534]).1.nextidx) =
      [65534, 65536] ∧
    ([65534, 0] : List Nat) ≠ [65534, 65536] ∧
    (65535 : Nat) ≠ 65535 + (maxL [1] + 1) := by decide

/-- Witness for C2 at the example of the claim: the second
`Indices(0,1,2,2,0,3)` call on a builder that already holds
`[0,1,2,2,0,3]` appends `[4,5,6,6,4,7]`. -/
theorem c2_rebasing_append_witness :
    ([0, 1, 2, 2, 0, 3] : List Nat) ≠ [] ∧
    c2b1.nextidx + maxL [0, 1, 2, 2, 0, 3] + 1 < 65536 ∧
    ((c2b1.indices [0, 1, 2, 2, 0, 3]).1.idxs =
        c2b1.idxs ++ [0, 1, 2, 2, 0, 3].map (fun r => r + c2b1.nextidx) ∧
      (c2b1.indices [0, 1, 2, 2, 0, 3]).1.nextidx =
        c2b1.nextidx + (maxL [0, 1, 2, 2, 0, 3] + 1)) ∧
    (runIdxCalls [[0, 1, 2, 2, 0, 3], [0, 1, 2, 2, 0, 3]]
        newIndexBuilder).idxs = [0, 1, 2, 2, 0, 3, 4, 5, 6, 6, 4, 7] :=
  ⟨by decide, by decide,
   c2_rebasing_append c2b1 [0, 1, 2, 2, 0, 3] (by decide) (by decide),
   by decide⟩

/-- C3 (corrected).  The identity-index fallback exists only in the
old `gfx.GeometryBuilder`: when its index slice is nil, `IndexCount`
returns the vertex count and `CopyIndices` fills the destination with
the identity sequence.  (The current `geometry.Builder` of the claim
has no such fallback: its `IndexCount` is the plain length of the
stored sequence, see the counterexample.) -/
theorem c3_identity_fallback (g : GeometryBuilder) (buf : List Nat)
    (h1 : g.idxs = none) (h2 : g.stride ≠ 0) :
    g.indexCount = some (g.verts.length / g.stride) ∧
    g.copyIndices buf = (List.range buf.length).map (· % 65536) := by
  constructor
  · simp [GeometryBuilder.indexCount, GeometryBuilder.vertexCount, h1, h2]
  · simp [GeometryBuilder.copyIndices, h1]

/-- Counterexample to C3 on the current `geometry.Builder`: a builder
with 4 vertices and no index calls reports `IndexCount() = 0`, not 4,
and its index copy-out hands over the empty sequence, not
`[0, 1, 2, 3]`. -/
theorem c3_identity_fallback_counterexample :
    c3state.vb.vertexCount = some 4 ∧
    c3state.ib.indexCount = 0 ∧
    c3state.ib.copyIndices = [] ∧
    (0 : Nat) ≠ 4 ∧ ([] : List Nat) ≠ [0, 1, 2, 3] := by decide

/-- Witness for C3: an old `GeometryBuilder` with 4 vertices and a nil
index slice reports index count 4 and fills a length-4 destination
with [0, 1, 2, 3]. -/
theorem c3_identity_fallback_witness :
    c3g4.idxs = none ∧ c3g4.stride ≠ 0 ∧
    (c3g4.indexCount = some (c3g4.verts.length / c3g4.stride) ∧
      c3g4.copyIndices [9, 9, 9, 9] =
        (List.range ([9, 9, 9, 9] : List Nat).length).map (· % 65536)) ∧
    c3g4.indexCount = some 4 ∧
    c3g4.copyIndices [9, 9, 9, 9] = [0, 1, 2, 3] :=
  ⟨rfl, by decide, c3_identity_fallback c3g4 [9, 9, 9, 9] rfl (by decide),
   by decide, by decide⟩

/-- C4 (corrected).  A per-channel setter called before any vertex has
been started does fail, but not with a `NoActiveVertex` error (no such
error exists in the code): with the channel in the format, the write
range `[offset, offset + 4)` lies outside the still-empty byte buffer,
so the copy panics with the slice-bounds error — and the receiver is
not left unchanged: `curvf` already holds the channel bit (and
`lastdata` the write offset) when the panic fires. -/
theorem c4_setter_before_vertex (vf r g bl a : Nat)
    (h : ¬vf &&& vertexColor = 0) :
    errKind ((newVertexBuilder vf).color r g bl a) = some .bounds ∧
    errCurvf ((newVertexBuilder vf).color r g bl a) = some vertexColor ∧
    (newVertexBuilder vf).curvf = 0 ∧ vertexColor ≠ 0 := by
  have hb : ¬((newVertexBuilder vf).cur +
      offsetOf (newVertexBuilder vf).vf vertexColor +
      ([r, g, bl, a] : List Nat).length ≤
      (newVertexBuilder vf).verts.length) := by
    show ¬(0 + offsetOf vf vertexColor + ([r, g, bl, a] : List Nat).length ≤
      ([] : List Nat).length)
    simp only [List.length_cons, List.length_nil]
    omega
  have hs := @set_err (newVertexBuilder vf) vertexColor [r, g, bl, a] h hb
  have hc : (newVertexBuilder vf).color r g bl a =
      (newVertexBuilder vf).set vertexColor [r, g, bl, a] := rfl
  rw [hc, hs]
  refine ⟨rfl, ?_, rfl, by decide⟩
  show some ((newVertexBuilder vf).curvf ||| vertexColor) = some vertexColor
  show some (0 ||| vertexColor) = some vertexColor
  rw [Nat.zero_or]

/-- Counterexample to C4 as claimed: on a fresh builder of format
Position|Color, the color setter fails with the bounds panic (there is
no `NoActiveVertex` error) and the panicking receiver has
`curvf = 2 ≠ 0`: the state was mutated. -/
theorem c4_setter_before_vertex_counterexample :
    errKind ((newVertexBuilder 3).color 1 2 3 4) = some BErr.bounds ∧
    errCurvf ((newVertexBuilder 3).color 1 2 3 4) = some 2 ∧
    (newVertexBuilder 3).curvf = 0 ∧
    (some (2 : Nat)) ≠ some 0 := by decide

/-- Witness for C4 at format 3 with color bytes (1, 2, 3, 4). -/
theorem c4_setter_before_vertex_witness :
    ¬(3 : Nat) &&& vertexColor = 0 ∧
    (errKind ((newVertexBuilder 3).color 1 2 3 4) = some .bounds ∧
      errCurvf ((newVertexBuilder 3).color 1 2 3 4) = some vertexColor ∧
      (newVertexBuilder 3).curvf = 0 ∧ vertexColor ≠ 0) :=
  ⟨by decide, c4_setter_before_vertex 3 1 2 3 4 (by decide)⟩

/-- C5 (corrected).  The copy-out runs `fillVertex` first and only
then compares formats: it fails exactly when the destination format
differs from the builder format (which `fillVertex` preserves), but on
that error path the receiver is left in the state `fillVertex`
produced — the finalization writes into the byte buffer and the
`lastdata` map are not rolled back, so the state is not in general
unchanged (see the counterexample). -/
theorem c5_copy_format_check (b bf : VertexBuilder) (destFormat : Nat)
    (hfill : b.fillVertex = .ok bf) :
    bf.vf = b.vf ∧
    b.copyVertices destFormat =
      if bf.vf ≠ destFormat then .error (.badFormat, bf)
      else .ok (bf, bf.verts) := by
  constructor
  · have h5 := fillFrom_run_preserve channelBits b
    have h6 : VertexBuilder.fillFrom channelBits b = .ok bf := hfill
    rw [h6] at h5
    exact h5.1
  · show (b.fillVertex).bind
      (fun b1 => if b1.vf ≠ destFormat then .error (.badFormat, b1)
        else .ok (b1, b1.verts)) = _
    rw [hfill]
    rfl

/-- Counterexample to the atomicity half of C5: after the `c1ops`
sequence on format 3, a copy-out to destination format 1 fails with
the format mismatch, but the failing receiver's byte buffer holds the
carry-forward fill of the last record (color bytes [9, 8, 7, 6] at
offset 28) where the pre-call state held zeros: the error path mutated
the buffer. -/
theorem c5_copy_format_check_counterexample :
    cvErrKind (c5state.copyVertices 1) = some BErr.badFormat ∧
    c5state.vf = 3 ∧ (3 : Nat) ≠ 1 ∧
    c5state.verts =
      [1, 2, 3, 4, 1, 2, 3, 4, 1, 2, 3, 4, 9, 8, 7, 6,
       5, 5, 5, 5, 6, 6, 6, 6, 7, 7, 7, 7, 0, 0, 0, 0] ∧
    cvErrVerts (c5state.copyVertices 1) =
      some [1, 2, 3, 4, 1, 2, 3, 4, 1, 2, 3, 4, 9, 8, 7, 6,
            5, 5, 5, 5, 6, 6, 6, 6, 7, 7, 7, 7, 9, 8, 7, 6] ∧
    cvErrVerts (c5state.copyVertices 1) ≠ some c5state.verts := by decide

/-- Witness for C5 on a fresh builder of format 1 (where `fillVertex`
is the identity) copying out to destination format 2. -/
theorem c5_copy_format_check_witness :
    (newVertexBuilder 1).fillVertex = .ok (newVertexBuilder 1) ∧
    ((newVertexBuilder 1).vf = (newVertexBuilder 1).vf ∧
      (newVertexBuilder 1).copyVertices 2 =
        if (newVertexBuilder 1).vf ≠ 2 then
          .error (.badFormat, newVertexBuilder 1)
        else .ok (newVertexBuilder 1, (newVertexBuilder 1).verts)) :=
  ⟨rfl, c5_copy_format_check (newVertexBuilder 1) (newVertexBuilder 1) 2 rfl⟩

/-- C6 (confirmed).  Reset round-trip: for every format, every
operation sequence `tOps` run on a fresh mesh builder, and every
operation sequence `sOps`, clearing the used builder and applying
`sOps` yields exactly the same run result — final state and panic
behavior, hence every observable output — as applying `sOps` to a
freshly constructed builder over the same format. -/
theorem c6_reset_roundtrip (vf : Nat) (tOps sOps : List BOp) :
    runBOps sOps ((endState (runBOps tOps (newBuilder vf))).clear) =
      runBOps sOps (newBuilder vf) := by
  have h := runBOps_preserve tOps (newBuilder vf)
  have h1 : (endState (runBOps tOps (newBuilder vf))).vb.vf = vf := h.1
  have h2 : (endState (runBOps tOps (newBuilder vf))).vb.stride =
      strideOf vf := h.2
  rw [clear_eq_new h1 h2]

/-- C7 (confirmed).  Offset-table tiling: for every format, the stride
is the sum of the byte sizes over the offset table, every channel of
the format appears in the table at its looked-up offset with its byte
range inside `[0, Stride)`, all table ranges lie inside `[0, Stride)`,
distinct entries have disjoint ranges, and every byte of
`[0, Stride)` is covered by some entry: the ranges tile `[0, Stride)`
exactly. -/
theorem c7_offset_tiling (vf : Nat) :
    (offsetsOf vf).foldr (fun p acc => attribBytes p.1 + acc) 0 =
      strideOf vf ∧
    (∀ c ∈ channelBits, vf &&& c ≠ 0 →
      (c, offsetOf vf c) ∈ offsetsOf vf ∧
      offsetOf vf c + attribBytes c ≤ strideOf vf) ∧
    (∀ p ∈ offsetsOf vf, p.2 + attribBytes p.1 ≤ strideOf vf) ∧
    (∀ p ∈ offsetsOf vf, ∀ q ∈ offsetsOf vf, p ≠ q →
      p.2 + attribBytes p.1 ≤ q.2 ∨ q.2 + attribBytes q.1 ≤ p.2) ∧
    (∀ n, n < strideOf vf →
      ∃ p ∈ offsetsOf vf, p.2 ≤ n ∧ n < p.2 + attribBytes p.1) := by
  have e1 : offsetsOf vf = offsetsFrom channelBits vf 0 := rfl
  have e2 : strideOf vf = strideFrom channelBits vf := rfl
  have htiles := offsetsFrom_tiles channelBits vf 0
  refine ⟨?_, ?_, ?_, ?_, ?_⟩
  · have hsum := tilesFrom_sum htiles
    rw [e1, e2]
    omega
  · intro c hc h
    exact ⟨offsetOf_mem hc h, offsetOf_add_le hc h⟩
  · intro p hp
    rw [e1] at hp
    have hbd := (tilesFrom_mem_bounds htiles hp).2
    rw [e2]
    omega
  · intro p hp q hq hne
    rw [e1] at hp hq
    exact tilesFrom_disjoint htiles hp hq hne
  · intro n hn
    rw [e2] at hn
    have hcov := tilesFrom_cover htiles (Nat.zero_le n) (by omega)
    rw [e1]
    exact hcov

/-- C8 (corrected).  An empty format does have `Stride() = 0`, but a
builder over it is not failure-free: the vertex count divides the
buffer length by the zero stride, which panics in Go (modelled as
`none`), and every per-channel setter fails the format check.  (The
claim that no operation fails is false, see the counterexample.) -/
theorem c8_empty_format :
    strideOf 0 = 0 ∧
    (newVertexBuilder 0).stride = 0 ∧
    (∀ b : VertexBuilder, b.stride = 0 → b.vertexCount = none) ∧
    errKind ((newVertexBuilder 0).color 1 2 3 4) = some .badFormat := by
  refine ⟨by decide, by decide, ?_, by decide⟩
  intro b h
  unfold VertexBuilder.vertexCount
  rw [if_pos h]

/-- Counterexample to C8 as claimed: over the empty format the vertex
count does not complete — `len(verts) / stride` is a division by zero
(`vertexCount` is `none`, not `some` anything). -/
theorem c8_empty_format_counterexample :
    strideOf 0 = 0 ∧
    VertexBuilder.vertexCount (newVertexBuilder 0) = none ∧
    (∀ n : Nat, VertexBuilder.vertexCount (newVertexBuilder 0) ≠ some n) := by
  refine ⟨by decide, by decide, ?_⟩
  intro n h
  exact Option.noConfusion h

/-- C9 (corrected).  nextBase invariant, corrected for uint16
wraparound: as long as the spec-level running `nextBase` of the call
sequence stays below 65536, after any sequence of rebasing append
calls on a fresh index builder, `nextidx` is zero when no index was
ever produced and otherwise one plus the maximum stored index.  (The
unconditional form is false under wraparound, see the
counterexample.) -/
theorem c9_nextbase_invariant (calls : List (List Nat))
    (hw : specNextBase calls < 65536) :
    ((runIdxCalls calls newIndexBuilder).idxs = [] ∧
      (runIdxCalls calls newIndexBuilder).nextidx = 0) ∨
    ((runIdxCalls calls newIndexBuilder).idxs ≠ [] ∧
      (runIdxCalls calls newIndexBuilder).nextidx =
        maxL (runIdxCalls calls newIndexBuilder).idxs + 1) :=
  runIdxCalls_inv calls newIndexBuilder (Or.inl ⟨rfl, rfl⟩) hw

/-- Counterexample to the unconditional C9: the calls `Indices(65535)`
then `Indices(0)` store `[65535, 0]` and leave `nextidx = 1`, while
one plus the maximum index ever produced is 65536. -/
theorem c9_nextbase_invariant_counterexample :
    (runIdxCalls [[65535], [0]] newIndexBuilder).idxs = [65535, 0] ∧
    (runIdxCalls [[65535], [0]] newIndexBuilder).nextidx = 1 ∧
    maxL (runIdxCalls [[65535], [0]] newIndexBuilder).idxs + 1 = 65536 ∧
    (1 : Nat) ≠ 65536 := by decide

/-- Witness for C9 at two `Indices(0,1,2,2,0,3)` calls: the stored
sequence is non-empty and `nextidx = 8 = maxL [0,...,7] + 1`. -/
theorem c9_nextbase_invariant_witness :
    specNextBase [[0, 1, 2, 2, 0, 3], [0, 1, 2, 2, 0, 3]] < 65536 ∧
    (((runIdxCalls [[0, 1, 2, 2, 0, 3], [0, 1, 2, 2, 0, 3]]
          newIndexBuilder).idxs = [] ∧
        (runIdxCalls [[0, 1, 2, 2, 0, 3], [0, 1, 2, 2, 0, 3]]
          newIndexBuilder).nextidx = 0) ∨
      ((runIdxCalls [[0, 1, 2, 2, 0, 3], [0, 1, 2, 2, 0, 3]]
          newIndexBuilder).idxs ≠ [] ∧
        (runIdxCalls [[0, 1, 2, 2, 0, 3], [0, 1, 2, 2, 0, 3]]
          newIndexBuilder).nextidx =
          maxL (runIdxCalls [[0, 1, 2, 2, 0, 3], [0, 1, 2, 2, 0, 3]]
            newIndexBuilder).idxs + 1)) :=
  ⟨by decide,
   c9_nextbase_invariant [[0, 1, 2, 2, 0, 3], [0, 1, 2, 2, 0, 3]]
     (by decide)⟩

/-- C10 (confirmed).  Caller-visible argument mutation: a rebasing
append overwrites each element of the caller-supplied slice in place
with its rebased value (raw value plus the `nextidx` in effect at call
entry, as a uint16), so after the call the caller's slice holds the
rebased values. -/
theorem c10_argument_mutation (b : IndexBuilder) (input : List Nat) :
    (b.indices input).2 = input.map (fun r => (r + b.nextidx) % 65536) :=
  indicesLoop_fst input b.nextidx b.nextidx

end Gfx

